import Mathlib

/-!
Verification development for the yazm-py Z-machine interpreter.

This file gives a shallow embedding, in Lean 4, of the parts of the
interpreter that the claims concern: byte-buffer primitives (`zdata.py`),
call frames (`frame.py`), the Quetzal save-file serializer and parser
(`quetzal.py`), the machine state, header accessors, checksum and
attribute operations (`zmachine.py`, `zheader.py`), the object-tree
surgery (`insert_obj` / `remove_obj`) and the input tokenizer.

Conventions:
* A Python `bytes` / `bytearray` is a `List Nat` (each entry a byte value).
* Python exceptions are modelled with `Except String` / `Option`; a
  function that mutates the machine and can raise returns the machine
  paired with an optional error, mirroring exactly where the source
  raises relative to its mutations.
* Machine words are plain `Nat` with the same masking the source applies.
-/

/-- Byte buffer, as in `zdata.py` (`class ZData(bytearray)`). -/
abbrev ZData := List Nat

/-- `ZData.u8`: `return self[index]` (out-of-range reads modelled as 0;
all uses in the claims stay in bounds). -/
def ZData.u8 (mem : ZData) (index : Nat) : Nat := mem.getD index 0

/-- `ZData.u16`: `return self[index] << 8 | self[index + 1]`. -/
def ZData.u16 (mem : ZData) (index : Nat) : Nat :=
  (mem.u8 index) <<< 8 ||| mem.u8 (index + 1)

/-- `ZData.write_u8`: `self[index] = value` (the source stores the value
as given; `bytearray` would reject values outside 0..255, which no claim
exercises on this path). -/
def ZData.write_u8 (mem : ZData) (index value : Nat) : ZData :=
  mem.set index value

/-- `ZData.write_u16`: the source writes `(value & 0xFF00) >> 8` then
`value & 0x00FF`. -/
def ZData.write_u16 (mem : ZData) (index value : Nat) : ZData :=
  (mem.set index ((value &&& 0xFF00) >>> 8)).set (index + 1) (value &&& 0x00FF)

/-- Call frame (`frame.py`): resume PC, optional store variable, locals,
evaluation stack, argument count. -/
structure Frame where
  resume : Nat
  store : Option Nat
  locals : List Nat
  stack : List Nat
  arg_count : Nat
deriving DecidableEq, Repr

/-- `Frame.__init__(resume, store, locals_, arguments)`: copies `locals_`,
then overwrites the first `len(arguments)` entries with the arguments;
`arg_count = len(arguments)`; the stack starts empty. -/
def Frame.make (resume : Nat) (store : Option Nat)
    (locals_ : List Nat) (arguments : List Nat) : Frame :=
  { resume := resume
    store := store
    locals := locals_.mapIdx fun i v => arguments.getD i v
    stack := []
    arg_count := arguments.length }

/-- `Frame.from_bytes`: parses a Quetzal `Stks` frame record.  Mirrors the
source exactly, including the fact that the locally computed `stack` list
is never assigned to the returned frame (source line 57 constructs the
frame with an empty stack and only patches `arg_count`). -/
def Frame.from_bytes (b : List Nat) : Frame :=
  let resume := ((b.getD 0 0) <<< 16) + ((b.getD 1 0) <<< 8) + b.getD 2 0
  let flags := b.getD 3 0
  let num_locals := flags &&& 0x0F
  let store : Option Nat :=
    if flags &&& 0x10 = 0 then some (b.getD 4 0) else none
  let mask := b.getD 5 0
  let arg_count := (List.range 7).countP fun bit => mask &&& (1 <<< bit) != 0
  let stack_length := ((b.getD 6 0) <<< 8) + b.getD 7 0
  let locals_ := (List.range num_locals).map fun offset =>
    ((b.getD (8 + offset * 2) 0) <<< 8) + b.getD (8 + offset * 2 + 1) 0
  -- the source also reads `stack_length` words into a local `stack` list,
  -- but never stores it on the frame it returns
  let new_frame := Frame.make resume store locals_ []
  { new_frame with arg_count := arg_count }

/-- `Frame.to_list`: serializes a frame for the `Stks` chunk.  Note the
flag computation mirrors `if self.store:` (Python truthiness): bit 4 is
set when the store variable is present *and nonzero*. -/
def Frame.to_list (f : Frame) : List Nat :=
  let store_truthy : Bool :=
    match f.store with
    | none => false
    | some s => s != 0
  let flags := if store_truthy then f.locals.length + 0x10 else f.locals.length
  let args_supplied := (List.range f.arg_count).foldl (fun acc bit => acc ||| (1 <<< bit)) 0
  let stack_length := f.stack.length
  [(f.resume &&& 0xFF0000) >>> 16,
   (f.resume &&& 0x00FF00) >>> 8,
   f.resume &&& 0x0000FF,
   flags,
   f.store.getD 0,  -- `self.store or 0`
   args_supplied,
   (stack_length &&& 0xFF00) >>> 8,
   stack_length &&& 0x00FF]
  ++ (f.locals.map fun l => [(l &&& 0xFF00) >>> 8, l &&& 0x00FF]).flatten
  ++ (f.stack.map fun v => [(v &&& 0xFF00) >>> 8, v &&& 0x00FF]).flatten

/-- The machine state (`zmachine.py`).  `dictionary` and `separators` hold
the result of `populate_dictionary` (whose ZSCII text decoding is outside
the scope of the claims and is therefore passed to `init` by its caller);
all other fields are as in the source. -/
structure ZMachine where
  memory : ZData
  pc : Nat
  original_dynamic : List Nat
  frames : List Frame
  version : Nat
  obj_size : Nat
  attr_width : Nat
  dictionary : List (List Char × Nat)
  separators : List Nat
deriving DecidableEq, Repr

/-- `ZMachine.__init__(raw_data)`: loads memory, sets the PC from the
header, freezes the version-derived sizes, and initializes
`original_dynamic` to the *empty* buffer (source line 67:
`self.original_dynamic = bytearray([])`). -/
def ZMachine.init (raw : List Nat) (dict : List (List Char × Nat))
    (seps : List Nat) : ZMachine :=
  let version := ZData.u8 raw 0x0
  { memory := raw
    pc := ZData.u16 raw 0x6
    original_dynamic := []
    frames := [Frame.make 0 none [] []]
    version := version
    obj_size := if version ≤ 3 then 9 else 14
    attr_width := if version ≤ 3 then 4 else 6
    dictionary := dict
    separators := seps }

/-- Header accessor `release` (`zheader.py`: `zdata.u16(0x2)`).  The header
is re-derived from memory on each access, as the `header` property does. -/
def ZMachine.header_release (zm : ZMachine) : Nat := zm.memory.u16 0x2

/-- Header accessor `serial_number` (`zdata[0x12:0x18]`). -/
def ZMachine.header_serial (zm : ZMachine) : List Nat :=
  (zm.memory.drop 0x12).take 6

/-- Header accessor `static_memory_addr` (`zdata.u16(0xE)`). -/
def ZMachine.header_static (zm : ZMachine) : Nat := zm.memory.u16 0xE

/-- Header accessor `checksum` (`zdata.u16(0x1C)`). -/
def ZMachine.header_checksum (zm : ZMachine) : Nat := zm.memory.u16 0x1C

/-- Header accessor `file_length` (`zheader.py` line 51:
`self.file_length = zdata.u16(0x1A)` — the raw word, with no
version-dependent multiplier). -/
def ZMachine.header_file_length (zm : ZMachine) : Nat := zm.memory.u16 0x1A

/-- Header accessor `obj_table_addr`:
`zdata.u16(0xA) + (31 if version <= 3 else 63) * 2`. -/
def ZMachine.header_obj_table_addr (zm : ZMachine) : Nat :=
  zm.memory.u16 0xA + (if zm.memory.u8 0x0 ≤ 3 then 31 else 63) * 2

/-- `ZMachine.calculate_checksum`: sums the bytes of memory over
`range(0x40, self.header.file_length)` and reduces modulo `0x1_0000`. -/
def ZMachine.calculate_checksum (zm : ZMachine) : Nat :=
  ((List.range' 0x40 (zm.header_file_length - 0x40)).foldl
    (fun s i => s + zm.memory.u8 i) 0) % 0x10000

/-- Modelled from the spec: the header `file_length` word "multiply by 2
for v1–3, 4 for v4–5, 8 for v6+", which `zheader.py` omits. -/
def ZMachine.spec_file_length (zm : ZMachine) : Nat :=
  zm.memory.u16 0x1A *
    (if zm.version ≤ 3 then 2 else if zm.version ≤ 5 then 4 else 8)

/-- Modelled from the spec: `checksum = Σ bytes[0x40, file_length) mod 2¹⁶`
with the spec's (multiplied) file length. -/
def ZMachine.spec_checksum (zm : ZMachine) : Nat :=
  ((List.range' 0x40 (zm.spec_file_length - 0x40)).foldl
    (fun s i => s + zm.memory.u8 i) 0) % 0x10000

/-- `ZMachine.get_object_addr`. -/
def ZMachine.get_object_addr (zm : ZMachine) (obj_id : Nat) : Nat :=
  if obj_id ≠ 0 then zm.header_obj_table_addr + (obj_id - 1) * zm.obj_size
  else zm.header_obj_table_addr

/-- `ZMachine.test_attr`: raises for `attr > self.attr_width * 8` (note:
strictly greater), otherwise tests bit `0x80 >> (attr % 8)` of the byte at
`object_addr + attr // 8`. -/
def ZMachine.test_attr (zm : ZMachine) (obj_id attr : Nat) : Except String Nat :=
  if attr > zm.attr_width * 8 then
    .error ("Can\x27t test out-of-bounds attribute: " ++ toString attr)
  else
    let addr := zm.get_object_addr obj_id + attr / 8
    let byte := zm.memory.u8 addr
    let bit := attr % 8
    .ok (if byte &&& (128 >>> bit) ≠ 0 then 1 else 0)

/-- `ZMachine.set_attr`: same bound check, then ORs the mask into the
attribute byte. -/
def ZMachine.set_attr (zm : ZMachine) (obj_id attr : Nat) : Except String ZMachine :=
  if attr > zm.attr_width * 8 then
    .error ("Can\x27t set out-of-bounds attribute: " ++ toString attr)
  else
    let addr := zm.get_object_addr obj_id + attr / 8
    let byte := zm.memory.u8 addr
    let bit := attr % 8
    .ok { zm with memory := zm.memory.write_u8 addr (byte ||| (128 >>> bit)) }

/-- `ZMachine.clear_attr`: same bound check, then clears the mask bit
(`byte & ~(128 >> bit)`, written here as subtraction of the common bits). -/
def ZMachine.clear_attr (zm : ZMachine) (obj_id attr : Nat) : Except String ZMachine :=
  if attr > zm.attr_width * 8 then
    .error ("Can\x27t set out-of-bounds attribute: " ++ toString attr)
  else
    let addr := zm.get_object_addr obj_id + attr / 8
    let byte := zm.memory.u8 addr
    let bit := attr % 8
    .ok { zm with memory := zm.memory.write_u8 addr (byte - (byte &&& (128 >>> bit))) }

/-- 4-byte big-endian length, as `struct.pack(">I", n)`. -/
def u32be (n : Nat) : List Nat :=
  [(n >>> 24) &&& 0xFF, (n >>> 16) &&& 0xFF, (n >>> 8) &&& 0xFF, n &&& 0xFF]

/-- `quetzal._write_chunk`: id, 4-byte big-endian length, data, pad to even. -/
def write_chunk (chunk_id data : List Nat) : List Nat :=
  chunk_id ++ u32be data.length ++ data ++ (if data.length % 2 ≠ 0 then [0] else [])

/-- Worker for `parse_chunks`; each iteration consumes at least 8 bytes,
so `fuel` initialized to the data length makes the recursion structural
without changing any result. -/
def parse_chunks_go : Nat → List Nat → List (List Nat × List Nat)
  | 0, _ => []
  | fuel + 1, data =>
    if data.length < 8 then []
    else
      let len := ((data.getD 4 0) <<< 24) ||| ((data.getD 5 0) <<< 16) |||
                 ((data.getD 6 0) <<< 8) ||| data.getD 7 0
      (data.take 4, (data.drop 8).take len) ::
        parse_chunks_go fuel (data.drop (8 + len + (if len % 2 ≠ 0 then 1 else 0)))

/-- `quetzal._parse_chunks`: scan chunks while at least 8 bytes remain;
each step consumes the header, `length` data bytes and a padding byte for
odd lengths.  Returned in scan order; lookups take the *last* binding for
an id, matching Python dict overwrite semantics. -/
def parse_chunks (data : List Nat) : List (List Nat × List Nat) :=
  parse_chunks_go data.length data

/-- Dict-style lookup over parsed chunks (later chunks with the same id
overwrite earlier ones, as in the Python dict). -/
def chunk_get (chunks : List (List Nat × List Nat)) (cid : List Nat) :
    Option (List Nat) :=
  (chunks.reverse.find? fun p => p.1 == cid).map (·.2)

/-- Length of the leading zero run, capped: the source counts with
`while i < len(xor) and xor[i] == 0 and run < 255`. -/
def zeroRun : List Nat → Nat → Nat
  | [], _ => 0
  | _ :: _, 0 => 0
  | x :: xs, cap + 1 => if x = 0 then zeroRun xs cap + 1 else 0

/-- Worker for `cmemEncode`; each iteration consumes at least one byte,
so `fuel` initialized to the input length makes the recursion structural
without changing any result. -/
def cmemEncodeGo : Nat → List Nat → List Nat
  | 0, _ => []
  | _, [] => []
  | fuel + 1, b :: rest =>
    if b ≠ 0 then b :: cmemEncodeGo fuel rest
    else
      let run := zeroRun rest 255
      0 :: run :: cmemEncodeGo fuel (rest.drop run)

/-- Run-length encoding loop of `quetzal._compress_cmem`: nonzero bytes
pass through; a zero byte is followed by the count of up to 255
*additional* zeros consumed from the same run. -/
def cmemEncode (xs : List Nat) : List Nat := cmemEncodeGo xs.length xs

/-- Trailing-zero trim of `quetzal._compress_cmem` (the `while end > 0 and
xor[end - 1] == 0` loop). -/
def trimTrailingZeros (xs : List Nat) : List Nat :=
  (xs.reverse.dropWhile fun b => b == 0).reverse

/-- `quetzal._compress_cmem`: XOR dynamic against original (`zip` with
`strict=False`, i.e. truncating), trim trailing zeros, run-length encode. -/
def compress_cmem (dynamic original : List Nat) : List Nat :=
  cmemEncode (trimTrailingZeros (List.zipWith (fun a b => a ^^^ b) dynamic original))

/-- Worker for `cmemDecode`; each iteration consumes at least one byte,
so `fuel` initialized to the input length makes the recursion structural
without changing any result. -/
def cmemDecodeGo : Nat → List Nat → List Nat
  | 0, _ => []
  | _, [] => []
  | fuel + 1, b :: rest =>
    if b ≠ 0 then b :: cmemDecodeGo fuel rest
    else
      match rest with
      | [] => [0]
      | c :: rest' => List.replicate (c + 1) 0 ++ cmemDecodeGo fuel rest'

/-- Decoding loop of `quetzal._decompress_cmem`: nonzero bytes are
literal; a zero byte followed by count `c` stands for `c + 1` zeros; a
trailing lone zero stands for one zero. -/
def cmemDecode (xs : List Nat) : List Nat := cmemDecodeGo xs.length xs

/-- `quetzal._decompress_cmem`: the decoded XOR stream is written into a
zero-initialized buffer of `len(original)` bytes (the loop stops at the
end of either input; the truncation below is equivalent), then XORed
against `original`. -/
def decompress_cmem (cmem original : List Nat) : List Nat :=
  let xorbuf := (cmemDecode cmem ++ List.replicate original.length 0).take original.length
  List.zipWith (fun a b => a ^^^ b) xorbuf original

/-- Chunk id `b"FORM"`. -/
def idFORM : List Nat := [0x46, 0x4F, 0x52, 0x4D]

/-- Chunk id `b"IFZS"`. -/
def idIFZS : List Nat := [0x49, 0x46, 0x5A, 0x53]

/-- Chunk id `b"IFhd"`. -/
def idIFhd : List Nat := [0x49, 0x46, 0x68, 0x64]

/-- Chunk id `b"CMem"`. -/
def idCMem : List Nat := [0x43, 0x4D, 0x65, 0x6D]

/-- Chunk id `b"UMem"`. -/
def idUMem : List Nat := [0x55, 0x4D, 0x65, 0x6D]

/-- Chunk id `b"Stks"`. -/
def idStks : List Nat := [0x53, 0x74, 0x6B, 0x73]

/-- `quetzal.save`: builds IFhd (release, serial, checksum, 3-byte PC),
CMem (compressed XOR diff of dynamic memory against `original_dynamic`),
Stks (concatenated frame records), wrapped in a FORM/IFZS container. -/
def quetzal_save (zm : ZMachine) (pc : Nat) : List Nat :=
  let ifhd :=
    [(zm.header_release &&& 0xFF00) >>> 8, zm.header_release &&& 0xFF]
    ++ zm.header_serial
    ++ [(zm.header_checksum &&& 0xFF00) >>> 8, zm.header_checksum &&& 0xFF]
    ++ [(pc >>> 16) &&& 0xFF, (pc >>> 8) &&& 0xFF, pc &&& 0xFF]
  let static_addr := zm.header_static
  let dynamic := zm.memory.take static_addr
  let cmem_data := compress_cmem dynamic zm.original_dynamic
  let stks_data := (zm.frames.map Frame.to_list).flatten
  let body := write_chunk idIFhd ifhd ++ write_chunk idCMem cmem_data ++
              write_chunk idStks stks_data
  idFORM ++ u32be (body.length + 4) ++ idIFZS ++ body

/-- Worker for `parse_stks`; each frame consumes at least 8 bytes, so
`fuel` initialized to the data length makes the recursion structural
without changing any result. -/
def parse_stks_go : Nat → List Nat → Except String (List Frame)
  | 0, _ => .ok []
  | fuel + 1, data =>
    if data.length = 0 then .ok []
    else if data.length < 8 then .error "Stks chunk truncated in frame header"
    else
      let flags := data.getD 3 0
      let num_locals := flags &&& 0x0F
      let stack_length := ((data.getD 6 0) <<< 8) ||| data.getD 7 0
      let frame_size := 8 + num_locals * 2 + stack_length * 2
      if data.length < frame_size then .error "Stks chunk truncated in frame body"
      else
        match parse_stks_go fuel (data.drop frame_size) with
        | .error e => .error e
        | .ok frames => .ok (Frame.from_bytes (data.take frame_size) :: frames)

/-- `quetzal._parse_stks`: splits the Stks chunk into frame records,
validating that at least a header (8 bytes) and the full frame body are
present, and parses each with `Frame.from_bytes`. -/
def parse_stks (data : List Nat) : Except String (List Frame) :=
  parse_stks_go data.length data

/-- `quetzal.restore`: validates the container, the story identity and the
chunk set, reconstructs dynamic memory and the frame list, and only then
mutates the machine.  The result pairs the (possibly updated) machine with
the raised error, if any; every error path returns the machine unchanged,
exactly as the source raises before its final three assignments.  The
source's local variables (`chunks`, `release`, `serial`, `checksum`, `pc`,
`static_addr`, `dynamic`) are inlined here. -/
def quetzal_restore (zm : ZMachine) (data : List Nat) : ZMachine × Option String :=
  if data.length < 12 then (zm, some "Save file too short")
  else if data.take 4 ≠ idFORM then (zm, some "Not an IFF file")
  else if (data.drop 8).take 4 ≠ idIFZS then (zm, some "Not a Quetzal save file")
  else
    match chunk_get (parse_chunks (data.drop 12)) idIFhd with
    | none => (zm, some "Missing IFhd chunk")
    | some ifhd =>
      if ifhd.length < 13 then (zm, some "IFhd chunk too short")
      else if ((ifhd.getD 0 0) <<< 8) ||| ifhd.getD 1 0 ≠ zm.header_release then
        (zm, some ("Release mismatch: save=" ++
          toString (((ifhd.getD 0 0) <<< 8) ||| ifhd.getD 1 0) ++
          ", story=" ++ toString zm.header_release))
      else if (ifhd.drop 2).take 6 ≠ zm.header_serial then
        (zm, some "Serial number mismatch")
      else if ((ifhd.getD 8 0) <<< 8) ||| ifhd.getD 9 0 ≠ zm.header_checksum then
        (zm, some ("Checksum mismatch: save=" ++
          toString (((ifhd.getD 8 0) <<< 8) ||| ifhd.getD 9 0) ++
          ", story=" ++ toString zm.header_checksum))
      else
        match (match chunk_get (parse_chunks (data.drop 12)) idCMem with
               | some c => some (decompress_cmem c zm.original_dynamic)
               | none => chunk_get (parse_chunks (data.drop 12)) idUMem) with
        | none => (zm, some "Missing CMem or UMem chunk")
        | some dynamic =>
          if dynamic.length > zm.header_static then
            (zm, some "Restored dynamic memory too large")
          else
            match chunk_get (parse_chunks (data.drop 12)) idStks with
            | none => (zm, some "Missing Stks chunk")
            | some stks =>
              match parse_stks stks with
              | .error e => (zm, some e)
              | .ok frames =>
                ({ zm with
                    memory := dynamic ++ zm.memory.drop dynamic.length
                    pc := ((ifhd.getD 10 0) <<< 16) ||| ((ifhd.getD 11 0) <<< 8) |||
                          ifhd.getD 12 0
                    frames := frames }, none)

/-- Abstract view of the object table for the tree-surgery claims: the
parent / sibling / child link slots of each object, one value per object
id.  This abstracts `get_parent` / `set_parent` (etc.) in `zmachine.py`,
which read and write the three disjoint link slots of the fixed-size
object record at `obj_table_addr + (id - 1) * obj_size`; distinct ids and
distinct slots never alias. -/
structure ObjStore where
  parent : Nat → Nat
  sibling : Nat → Nat
  child : Nat → Nat

/-- `ZMachine.get_parent`: `if obj_id == 0: return 0`, else read the slot. -/
def ObjStore.get_parent (s : ObjStore) (obj_id : Nat) : Nat :=
  if obj_id = 0 then 0 else s.parent obj_id

/-- `ZMachine.get_sibling`: `if obj_id == 0: return 0`, else read the slot. -/
def ObjStore.get_sibling (s : ObjStore) (obj_id : Nat) : Nat :=
  if obj_id = 0 then 0 else s.sibling obj_id

/-- `ZMachine.get_child`: `if obj_id == 0: return 0`, else read the slot. -/
def ObjStore.get_child (s : ObjStore) (obj_id : Nat) : Nat :=
  if obj_id = 0 then 0 else s.child obj_id

/-- `ZMachine.set_parent`: write the parent slot (no id-0 guard in source). -/
def ObjStore.set_parent (s : ObjStore) (obj_id v : Nat) : ObjStore :=
  { s with parent := Function.update s.parent obj_id v }

/-- `ZMachine.set_sibling`. -/
def ObjStore.set_sibling (s : ObjStore) (obj_id v : Nat) : ObjStore :=
  { s with sibling := Function.update s.sibling obj_id v }

/-- `ZMachine.set_child`. -/
def ObjStore.set_child (s : ObjStore) (obj_id v : Nat) : ObjStore :=
  { s with child := Function.update s.child obj_id v }

/-- The inner `get_older` recursion of `ZMachine.remove_obj`: walk the
sibling chain from `prev` until the next sibling is `obj_id`.  The Python
recursion has no terminator; `fuel` makes it total, with `none` standing
for non-termination (unreachable from a well-formed tree). -/
def get_older (s : ObjStore) (obj_id : Nat) : Nat → Nat → Option Nat
  | _, 0 => none
  | prev, fuel + 1 =>
    let next := s.get_sibling prev
    if next = obj_id then some prev else get_older s obj_id next fuel

/-- `ZMachine.remove_obj`: no-op when the object has no parent; otherwise
unlink it from its parent's child chain (either the `child` slot or the
older sibling's `sibling` slot) and clear its own parent and sibling. -/
def remove_obj (s : ObjStore) (obj_id fuel : Nat) : Option ObjStore :=
  let parent := s.get_parent obj_id
  if parent = 0 then some s
  else
    let parents_first_child := s.get_child parent
    let younger_sibling := s.get_sibling obj_id
    let unlinked : Option ObjStore :=
      if obj_id = parents_first_child then
        some (s.set_child parent younger_sibling)
      else
        match get_older s obj_id parents_first_child fuel with
        | none => none
        | some older_sibling => some (s.set_sibling older_sibling younger_sibling)
    unlinked.map fun t => (t.set_parent obj_id 0).set_sibling obj_id 0

/-- `ZMachine.insert_obj`: no-op when `obj_id` is already the first child
of the destination; otherwise detach it (`remove_obj`), then link it in as
the new first child.  The old first child is read *before* the removal,
exactly as in the source. -/
def insert_obj (s : ObjStore) (obj_id destination fuel : Nat) : Option ObjStore :=
  let parents_first_child := s.get_child destination
  if parents_first_child = obj_id then some s
  else
    (remove_obj s obj_id fuel).map fun t =>
      ((t.set_parent obj_id destination).set_child destination obj_id).set_sibling
        obj_id parents_first_child

/-- `SibPath f a l b`: starting at `a` and repeatedly applying `f`, the
nodes visited are exactly the (nonzero) entries of `l`, ending at `b`. -/
inductive SibPath (f : Nat → Nat) : Nat → List Nat → Nat → Prop
  | nil (a : Nat) : SibPath f a [] a
  | cons {a b : Nat} {l : List Nat} (ha : a ≠ 0) (h : SibPath f (f a) l b) :
      SibPath f a (a :: l) b

/-- Well-formed object forest, as the claim assumes it: every sibling
chain terminates at 0 in finitely many steps; every member of the child
chain of `p` has parent `p`; and every object with a nonzero parent occurs
in that parent's child chain. -/
structure ObjStore.WF (s : ObjStore) : Prop where
  term : ∀ m, ∃ l, SibPath s.get_sibling m l 0
  childParent : ∀ p, p ≠ 0 →
    ∀ l, SibPath s.get_sibling (s.get_child p) l 0 → ∀ m ∈ l, s.get_parent m = p
  mem : ∀ m, m ≠ 0 → s.get_parent m ≠ 0 →
    ∀ l, SibPath s.get_sibling (s.get_child (s.get_parent m)) l 0 → m ∈ l

/-- Python `str.split()` whitespace set (ASCII portion, the only one the
tokenizer can meet: input is replaced separator bytes and story text). -/
def isPySpace (c : Char) : Bool :=
  c == ' ' || c == '\t' || c == '\n' || c == '\x0b' || c == '\x0c' || c == '\r'

/-- Worker for `splitTokens`: accumulate the current (reversed) run of
non-whitespace characters. -/
def splitTokensGo : List Char → List Char → List (List Char)
  | [], acc => if acc.isEmpty then [] else [acc.reverse]
  | c :: cs, acc =>
    if isPySpace c then
      if acc.isEmpty then splitTokensGo cs []
      else acc.reverse :: splitTokensGo cs []
    else splitTokensGo cs (c :: acc)

/-- Python `str.split()` with no argument: maximal nonempty runs of
non-whitespace characters. -/
def splitTokens (l : List Char) : List (List Char) := splitTokensGo l []

/-- Decidable "is `p` a prefix of `t`" check used by substring search. -/
def isPrefixList : List Char → List Char → Bool
  | [], _ => true
  | _ :: _, [] => false
  | a :: ps, b :: ts => a == b && isPrefixList ps ts

/-- Python `str.find`: index of the first occurrence of `pat` in `text`,
`none` for absent (the source maps this to `-1`). -/
def subIdx (text pat : List Char) : Option Nat :=
  match text with
  | [] => if pat.isEmpty then some 0 else none
  | _ :: rest => if isPrefixList pat text then some 0 else (subIdx rest pat).map (· + 1)

/-- `found.get(key, 0)` / `self.dictionary.get(key, 0)`-style lookup. -/
def assocGetD (l : List (List Char × Nat)) (key : List Char) : Nat :=
  ((l.find? fun p => p.1 == key).map (·.2)).getD 0

/-- `ZMachine.check_dictionary`: look the word up, truncated to 6
characters for v1–3 and 9 for v4+; 0 when absent. -/
def ZMachine.check_dictionary (zm : ZMachine) (word : List Char) : Nat :=
  let length := if zm.version ≤ 3 then 6 else 9
  assocGetD zm.dictionary (word.take length)

/-- The token loop of `ZMachine.tokenise`: for each token, search for it
in the original `text` starting from `found.get(token, 0)` (the byte just
past the previous occurrence of the *same* token), record
`(dictionary_address, length, offset + position + start)` and advance the
per-token search offset.  `position` is `-1` when the search fails, as
Python `str.find` returns. -/
def tokeniseLoop (zm : ZMachine) (text : List Char) (start : Nat) :
    List (List Char) → List (List Char × Nat) → List (Nat × Nat × Int)
  | [], _ => []
  | token :: rest, found =>
    let offset := assocGetD found token
    let position : Int :=
      match subIdx (text.drop offset) token with
      | some p => (p : Int)
      | none => -1
    let dict_addr := zm.check_dictionary token
    let token_addr : Int := (offset : Int) + position + (start : Int)
    let found' := (token, ((offset : Int) + position + (token.length : Int)).toNat) :: found
    (dict_addr, token.length, token_addr) :: tokeniseLoop zm text start rest found'

/-- A positional byte write of the parse-buffer writer
(`ZData.get_writer(...).byte(v)`): fails (Python `IndexError` /
`ValueError`) outside the buffer or outside 0..255. -/
def zwriteByte (mem : ZData) (index : Nat) (value : Int) : Option ZData :=
  if 0 ≤ value ∧ value ≤ 255 ∧ index < mem.length then
    some (mem.set index value.toNat)
  else none

/-- A positional word write (`write.word(v)`): two masked byte stores. -/
def zwriteWord (mem : ZData) (index value : Nat) : Option ZData :=
  if index + 1 < mem.length then
    some ((mem.set index ((value &&& 0xFF00) >>> 8)).set (index + 1) (value &&& 0x00FF))
  else none

/-- The record-writing loop of `ZMachine.tokenise`: for each token a
4-byte record (dictionary-address word, length byte, position byte) at
consecutive addresses. -/
def writeTokenRecords (mem : ZData) (addr : Nat) :
    List (Nat × Nat × Int) → Option ZData
  | [] => some mem
  | (d_addr, length, t_addr) :: rest => do
    let m1 ← zwriteWord mem addr d_addr
    let m2 ← zwriteByte m1 (addr + 2) (length : Int)
    let m3 ← zwriteByte m2 (addr + 3) t_addr
    writeTokenRecords m3 (addr + 4) rest

/-- The token records `ZMachine.tokenise` computes before writing them:
replace each separator byte with two spaces (`input_str.replace`), split on
whitespace, and run the token loop over the resulting word list. -/
def ZMachine.token_records (zm : ZMachine) (text : List Char) :
    List (Nat × Nat × Int) :=
  let start := if zm.version ≤ 4 then 1 else 2
  let input_str := zm.separators.foldl
    (fun s sep => (s.map fun c => if c.toNat = sep then [' ', ' '] else [c]).flatten)
    text
  let token_list := splitTokens input_str
  tokeniseLoop zm text start token_list []

/-- `ZMachine.tokenise(text, parse_addr)`: compute the token records, then
write the token-count byte at `parse_addr + 1` followed by the 4-byte
records.  `none` models an exception inside the writer. -/
def ZMachine.tokenise (zm : ZMachine) (text : List Char) (parse_addr : Nat) :
    Option ZMachine :=
  let tokens := zm.token_records text
  do
    let m1 ← zwriteByte zm.memory (parse_addr + 1) (tokens.length : Int)
    let m2 ← writeTokenRecords m1 (parse_addr + 2) tokens
    some { zm with memory := m2 }

/-- Test fixture: a v3 story image with `static_memory_addr = 4` and a
nonzero version byte in the dynamic prefix. -/
def storyC5 : List Nat := ((List.replicate 0x40 0).set 0 3).set 0xF 4

/-- Test fixture: a v3 story image whose raw header file-length word is
`0x22` and whose bytes at `0x40..0x43` are `1,2,3,4`. -/
def storyC6 : List Nat :=
  ((((((List.replicate 0x44 0).set 0 3).set 0x1B 0x22).set 0x40 1).set 0x41 2).set
    0x42 3).set 0x43 4

/-- Machine loaded from `storyC6`. -/
def zmC6 : ZMachine := ZMachine.init storyC6 [] []

/-- Test fixture: a v3 story image large enough that the byte addressed by
an attribute index of 32 is inside memory. -/
def storyC7 : List Nat := (List.replicate 0x60 0).set 0 3

/-- Machine loaded from `storyC7`. -/
def zmC7 : ZMachine := ZMachine.init storyC7 [] []

/-- Test fixture: a v3 story image with release 34, serial `1..6`,
checksum `0xABCD` and `static_memory_addr = 0x20`. -/
def storyC1 : List Nat :=
  ((((((((((List.replicate 0x40 0).set 0 3).set 3 34).set 0xF 0x20).set 0x12 1).set
    0x13 2).set 0x14 3).set 0x15 4).set 0x16 5).set 0x17 6 |>.set 0x1C 0xAB).set
    0x1D 0xCD

/-- Test fixture: a machine in the intended post-load configuration
(`original_dynamic` holding the dynamic prefix) whose single frame has a
store variable and a nonempty evaluation stack. -/
def zmC1 : ZMachine :=
  { memory := storyC1
    pc := 0x1234
    original_dynamic := storyC1.take 0x20
    frames := [⟨0x0102, some 5, [17], [9], 1⟩]
    version := 3
    obj_size := 9
    attr_width := 4
    dictionary := []
    separators := [] }

/-- Test fixture: a minimal machine for the tokenizer (empty dictionary
and separator list). -/
def zmC9 : ZMachine :=
  { memory := List.replicate 16 0
    pc := 0
    original_dynamic := []
    frames := []
    version := 3
    obj_size := 9
    attr_width := 4
    dictionary := []
    separators := [] }

/-- Test fixture: input text in which the second token `x` also occurs as
a substring of the earlier word `axe`. -/
def textC9 : List Char := ['a', 'x', 'e', ' ', 'x']

/-- The object store with no objects: all link slots 0. -/
def emptyObjStore : ObjStore :=
  { parent := fun _ => 0, sibling := fun _ => 0, child := fun _ => 0 }

/-- The error reasons `quetzal.restore` can raise: the claim's list
(too-short data, missing FORM/IFZS tags, missing IFhd/Stks/memory chunk,
short IFhd, release/serial/checksum mismatch, oversized dynamic payload,
truncated Stks frame). -/
def restoreErrorLike (e : String) : Prop :=
  e = "Save file too short" ∨
  e = "Not an IFF file" ∨
  e = "Not a Quetzal save file" ∨
  e = "Missing IFhd chunk" ∨
  e = "IFhd chunk too short" ∨
  (∃ a b : Nat, e = "Release mismatch: save=" ++ toString a ++ ", story=" ++ toString b) ∨
  e = "Serial number mismatch" ∨
  (∃ a b : Nat, e = "Checksum mismatch: save=" ++ toString a ++ ", story=" ++ toString b) ∨
  e = "Missing CMem or UMem chunk" ∨
  e = "Restored dynamic memory too large" ∨
  e = "Missing Stks chunk" ∨
  e = "Stks chunk truncated in frame header" ∨
  e = "Stks chunk truncated in frame body"

/-- C2: the claim fails on the code.  `Frame.to_list` sets flag bit 4 for
a frame that *does* store a result (store variable 5), the opposite of the
claimed convention, and `Frame.from_bytes` — which does follow the claimed
convention — therefore reads that frame back without a store; a frame with
no store comes back with store variable 0.  Serialization and parsing thus
disagree on the flag encoding. -/
theorem frame_store_flag_bug :
    ((Frame.to_list ⟨0x123, some 5, [7], [], 1⟩).getD 3 0) &&& 0x10 ≠ 0 ∧
    (Frame.from_bytes (Frame.to_list ⟨0x123, some 5, [7], [], 1⟩)).store = none ∧
    (Frame.from_bytes (Frame.to_list ⟨0, none, [], [], 0⟩)).store = some 0 := by
  decide

/-- C5: the claim fails on the code.  `ZMachine.__init__` sets
`original_dynamic` to the empty buffer for every story, so it does not
equal the dynamic prefix `memory[0:static_memory_addr]` whenever that
prefix is nonempty. -/
theorem original_dynamic_not_captured :
    (∀ raw dict seps, (ZMachine.init raw dict seps).original_dynamic = []) ∧
    (ZMachine.init storyC5 [] []).original_dynamic ≠
      (ZMachine.init storyC5 [] []).memory.take
        (ZMachine.init storyC5 [] []).header_static := by
  exact ⟨fun _ _ _ => rfl, by decide⟩

/-- C6: the claim fails on the code.  `Header.file_length` is the raw word
at 0x1A with no version multiplier, so `calculate_checksum` sums over
`[0x40, raw_word)` — here the empty range — while the claimed formula
(with the ×2 multiplier for v3) sums the bytes `1+2+3+4` at `0x40..0x43`. -/
theorem checksum_ignores_length_multiplier :
    zmC6.header_file_length = 0x22 ∧
    zmC6.spec_file_length = 0x44 ∧
    zmC6.calculate_checksum = 0 ∧
    zmC6.spec_checksum = 10 ∧
    zmC6.calculate_checksum ≠ zmC6.spec_checksum := by
  decide

/-- C7: the claim fails on the code.  For a v3 machine (`attr_width = 4`)
the attribute index 32 satisfies `32 ≥ 8 · attr_width`, so the claim
requires a fatal error, but the source's strict `attr > attr_width * 8`
comparison lets 32 through for `test_attr`, `set_attr` and `clear_attr`
(which then touch the byte after the attribute field), while 33 errors. -/
theorem attr_bound_off_by_one :
    zmC7.attr_width * 8 = 32 ∧
    zmC7.test_attr 1 32 = Except.ok 0 ∧
    (∃ z, zmC7.set_attr 1 32 = Except.ok z) ∧
    (∃ z, zmC7.clear_attr 1 32 = Except.ok z) ∧
    (∃ e, zmC7.test_attr 1 33 = Except.error e) := by
  exact ⟨by decide, rfl, ⟨_, rfl⟩, ⟨_, rfl⟩, ⟨_, rfl⟩⟩

/-- C1: the claim fails on the code.  Restoring the Quetzal file produced
by `save` into the very machine it was saved from brings back memory and
PC, but the single frame loses both its store variable (the inverted flag
bit of `Frame.to_list`) and its evaluation stack (discarded by
`Frame.from_bytes`), so the restored state is not observationally equal. -/
theorem save_restore_roundtrip_bug :
    (quetzal_restore zmC1 (quetzal_save zmC1 zmC1.pc)).2 = none ∧
    (quetzal_restore zmC1 (quetzal_save zmC1 zmC1.pc)).1.memory = zmC1.memory ∧
    (quetzal_restore zmC1 (quetzal_save zmC1 zmC1.pc)).1.pc = zmC1.pc ∧
    (quetzal_restore zmC1 (quetzal_save zmC1 zmC1.pc)).1.frames =
      [⟨0x0102, none, [17], [], 1⟩] ∧
    (quetzal_restore zmC1 (quetzal_save zmC1 zmC1.pc)).1.frames ≠ zmC1.frames := by
  decide

/-- C9 counterexample: with input text `axe x`, the second token `x`
occurs (as a token) at byte offset 4, so under the claim its record's
position byte (v3 base 1) must be 5; the code's forward search finds the
`x` inside `axe` and records 2 instead. -/
theorem tokenise_position_counterexample :
    ((zmC9.tokenise textC9 0).map fun z => z.memory.getD 9 0) = some 2 ∧
    isPrefixList ['x'] (textC9.drop 4) = true ∧
    (2 : Nat) ≠ 4 + 1 := by
  decide

theorem cmemDecodeGo_nil (g : Nat) : cmemDecodeGo g [] = [] := by
  cases g <;> rfl

theorem zeroRun_le (xs : List Nat) (cap : Nat) : zeroRun xs cap ≤ cap := by
  induction xs generalizing cap with
  | nil => cases cap <;> simp [zeroRun]
  | cons x xs ih =>
    cases cap with
    | zero => simp [zeroRun]
    | succ c =>
      by_cases hx : x = 0 <;> simp [zeroRun, hx]
      exact ih c

theorem zeroRun_take (xs : List Nat) (cap : Nat) :
    xs.take (zeroRun xs cap) = List.replicate (zeroRun xs cap) 0 := by
  induction xs generalizing cap with
  | nil => cases cap <;> simp [zeroRun]
  | cons x xs ih =>
    cases cap with
    | zero => simp [zeroRun]
    | succ c =>
      by_cases hx : x = 0
      · simp [zeroRun, hx, List.replicate_succ, ih c]
      · simp [zeroRun, hx]

theorem replicate_zeroRun_append (xs : List Nat) (cap : Nat) :
    List.replicate (zeroRun xs cap) 0 ++ xs.drop (zeroRun xs cap) = xs := by
  conv_rhs => rw [← List.take_append_drop (zeroRun xs cap) xs]
  rw [zeroRun_take]

theorem cmemDecodeGo_cmemEncodeGo (fuel : Nat) : ∀ xs : List Nat, xs.length ≤ fuel →
    ∀ gfuel, (cmemEncodeGo fuel xs).length ≤ gfuel →
    cmemDecodeGo gfuel (cmemEncodeGo fuel xs) = xs := by
  induction fuel with
  | zero =>
    intro xs hxs gfuel _
    have : xs = [] := List.length_eq_zero.mp (Nat.le_zero.mp hxs)
    subst this
    simp [cmemEncodeGo, cmemDecodeGo_nil]
  | succ fuel ih =>
    intro xs hxs gfuel hg
    match xs with
    | [] => simp [cmemEncodeGo, cmemDecodeGo_nil]
    | b :: rest =>
      by_cases hb : b = 0
      · subst hb
        rw [show cmemEncodeGo (fuel + 1) (0 :: rest) =
              0 :: zeroRun rest 255 :: cmemEncodeGo fuel (rest.drop (zeroRun rest 255))
            from by simp [cmemEncodeGo]] at hg ⊢
        match gfuel, hg with
        | g + 1, hg =>
          rw [show cmemDecodeGo (g + 1)
                (0 :: zeroRun rest 255 :: cmemEncodeGo fuel (rest.drop (zeroRun rest 255))) =
              List.replicate (zeroRun rest 255 + 1) 0 ++
                cmemDecodeGo g (cmemEncodeGo fuel (rest.drop (zeroRun rest 255)))
            from by simp [cmemDecodeGo]]
          have hlen : (rest.drop (zeroRun rest 255)).length ≤ fuel := by
            have := List.length_drop (zeroRun rest 255) rest
            have hx : rest.length ≤ fuel := by
              simpa using Nat.le_of_succ_le_succ hxs
            omega
          have hglen : (cmemEncodeGo fuel (rest.drop (zeroRun rest 255))).length ≤ g := by
            simp at hg
            omega
          rw [ih _ hlen g hglen]
          rw [List.replicate_succ]
          simp [replicate_zeroRun_append]
      · rw [show cmemEncodeGo (fuel + 1) (b :: rest) = b :: cmemEncodeGo fuel rest
            from by simp [cmemEncodeGo, hb]] at hg ⊢
        match gfuel, hg with
        | g + 1, hg =>
          rw [show cmemDecodeGo (g + 1) (b :: cmemEncodeGo fuel rest) =
                b :: cmemDecodeGo g (cmemEncodeGo fuel rest)
            from by simp [cmemDecodeGo, hb]]
          have hlen : rest.length ≤ fuel := by simpa using Nat.le_of_succ_le_succ hxs
          have hglen : (cmemEncodeGo fuel rest).length ≤ g := by
            simp at hg; omega
          rw [ih _ hlen g hglen]

/-- Run-length decode inverts run-length encode. -/
theorem cmemDecode_cmemEncode (xs : List Nat) : cmemDecode (cmemEncode xs) = xs :=
  cmemDecodeGo_cmemEncodeGo xs.length xs (Nat.le_refl _) _ (Nat.le_refl _)

theorem trimTrailingZeros_spec (xs : List Nat) :
    ∃ k, trimTrailingZeros xs ++ List.replicate k 0 = xs := by
  refine ⟨(xs.reverse.takeWhile fun b => b == 0).length, ?_⟩
  have htw : xs.reverse.takeWhile (fun b => b == 0) =
      List.replicate (xs.reverse.takeWhile fun b => b == 0).length 0 := by
    apply List.eq_replicate_of_mem
    intro b hb
    have := List.mem_takeWhile_imp hb
    simpa using this
  calc trimTrailingZeros xs ++ List.replicate (xs.reverse.takeWhile fun b => b == 0).length 0
      = (xs.reverse.dropWhile fun b => b == 0).reverse ++
          (xs.reverse.takeWhile fun b => b == 0).reverse := by
        rw [trimTrailingZeros]
        rw [← htw]
        rw [htw, List.reverse_replicate, ← htw]
    _ = ((xs.reverse.takeWhile fun b => b == 0) ++
          (xs.reverse.dropWhile fun b => b == 0)).reverse := by
        rw [List.reverse_append]
    _ = xs := by rw [List.takeWhile_append_dropWhile, List.reverse_reverse]

theorem zipWith_xor_cancel : ∀ d o : List Nat, d.length = o.length →
    List.zipWith (fun a b => a ^^^ b) (List.zipWith (fun a b => a ^^^ b) d o) o = d
  | [], [], _ => rfl
  | a :: d, b :: o, h => by
    simp only [List.zipWith_cons_cons, List.cons.injEq]
    exact ⟨Nat.xor_cancel_right b a, zipWith_xor_cancel d o (by simpa using h)⟩

/-- C4: decompressing the CMem payload produced by compressing `dynamic`
against `original`, again against `original`, returns exactly `dynamic`
whenever the two buffers have equal length. -/
theorem cmem_compress_decompress_roundtrip (dynamic original : List Nat)
    (h : dynamic.length = original.length) :
    decompress_cmem (compress_cmem dynamic original) original = dynamic := by
  unfold decompress_cmem compress_cmem
  rw [cmemDecode_cmemEncode]
  obtain ⟨k, hk⟩ := trimTrailingZeros_spec
    (List.zipWith (fun a b => a ^^^ b) dynamic original)
  have hxlen : (List.zipWith (fun a b => a ^^^ b) dynamic original).length =
      original.length := by
    rw [List.length_zipWith, h, Nat.min_self]
  have hklen : (trimTrailingZeros (List.zipWith (fun a b => a ^^^ b) dynamic original)).length
      + k = original.length := by
    have := congrArg List.length hk
    simpa [hxlen] using this
  have hbuf : (trimTrailingZeros (List.zipWith (fun a b => a ^^^ b) dynamic original) ++
      List.replicate original.length 0).take original.length =
      List.zipWith (fun a b => a ^^^ b) dynamic original := by
    rw [List.take_append_eq_append_take, List.take_replicate]
    rw [List.take_of_length_le (by omega)]
    have hmin : min (original.length -
        (trimTrailingZeros (List.zipWith (fun a b => a ^^^ b) dynamic original)).length)
        original.length = k := by omega
    rw [hmin, hk]
  rw [hbuf]
  exact zipWith_xor_cancel dynamic original h

/-- Witness for `cmem_compress_decompress_roundtrip` at a concrete pair of
equal-length buffers. -/
theorem cmem_roundtrip_witness :
    ([1, 0, 0, 5, 0] : List Nat).length = ([1, 2, 0, 0, 0] : List Nat).length ∧
    decompress_cmem (compress_cmem [1, 0, 0, 5, 0] [1, 2, 0, 0, 0]) [1, 2, 0, 0, 0] =
      [1, 0, 0, 5, 0] :=
  ⟨by decide, cmem_compress_decompress_roundtrip _ _ (by decide)⟩

theorem parse_stks_go_error (fuel : Nat) : ∀ data e, parse_stks_go fuel data = .error e →
    e = "Stks chunk truncated in frame header" ∨ e = "Stks chunk truncated in frame body" := by
  induction fuel with
  | zero => intro data e h; simp [parse_stks_go] at h
  | succ fuel ih =>
    intro data e h
    simp only [parse_stks_go] at h
    split at h
    · simp at h
    · split at h
      · simp only [Except.error.injEq] at h
        exact Or.inl h.symm
      · split at h
        · simp only [Except.error.injEq] at h
          exact Or.inr h.symm
        · split at h
          · simp only [Except.error.injEq] at h
            subst h
            exact ih _ _ (by assumption)
          · simp at h

theorem parse_stks_error (data : List Nat) (e : String) (h : parse_stks data = .error e) :
    e = "Stks chunk truncated in frame header" ∨ e = "Stks chunk truncated in frame body" :=
  parse_stks_go_error data.length data e h

/-- C3: `quetzal.restore` is total (it either succeeds or raises one of
the listed error reasons) and atomic on failure: every error path returns
the machine with its memory, PC and frame list exactly as before the
call, because the source raises strictly before its mutations. -/
theorem restore_total_and_atomic (zm : ZMachine) (data : List Nat) :
    (quetzal_restore zm data).2 = none ∨
    ((quetzal_restore zm data).1 = zm ∧
      ∃ e, (quetzal_restore zm data).2 = some e ∧ restoreErrorLike e) := by
  rcases h : quetzal_restore zm data with ⟨zm1, err⟩
  delta quetzal_restore at h
  split at h
  · injection h with h1 h2; subst h1; subst h2; exact Or.inr ⟨rfl, _, rfl, Or.inl rfl⟩
  split at h
  · injection h with h1 h2; subst h1; subst h2; exact Or.inr ⟨rfl, _, rfl, Or.inr (Or.inl rfl)⟩
  split at h
  · injection h with h1 h2; subst h1; subst h2; exact Or.inr ⟨rfl, _, rfl, Or.inr (Or.inr (Or.inl rfl))⟩
  split at h
  · injection h with h1 h2; subst h1; subst h2; exact Or.inr ⟨rfl, _, rfl, Or.inr (Or.inr (Or.inr (Or.inl rfl)))⟩
  split at h
  · injection h with h1 h2; subst h1; subst h2; exact Or.inr ⟨rfl, _, rfl, Or.inr (Or.inr (Or.inr (Or.inr (Or.inl rfl))))⟩
  split at h
  · injection h with h1 h2
    subst h1
    subst h2
    exact Or.inr ⟨rfl, _, rfl,
      Or.inr (Or.inr (Or.inr (Or.inr (Or.inr (Or.inl ⟨_, _, rfl⟩)))))⟩
  split at h
  · injection h with h1 h2
    subst h1
    subst h2
    exact Or.inr ⟨rfl, _, rfl,
      Or.inr (Or.inr (Or.inr (Or.inr (Or.inr (Or.inr (Or.inl rfl))))))⟩
  split at h
  · injection h with h1 h2
    subst h1
    subst h2
    exact Or.inr ⟨rfl, _, rfl,
      Or.inr (Or.inr (Or.inr (Or.inr (Or.inr (Or.inr (Or.inr (Or.inl ⟨_, _, rfl⟩)))))))⟩
  split at h
  · injection h with h1 h2
    subst h1
    subst h2
    exact Or.inr ⟨rfl, _, rfl,
      Or.inr (Or.inr (Or.inr (Or.inr (Or.inr (Or.inr (Or.inr (Or.inr (Or.inl rfl))))))))⟩
  split at h
  · injection h with h1 h2
    subst h1
    subst h2
    exact Or.inr ⟨rfl, _, rfl,
      Or.inr (Or.inr (Or.inr (Or.inr (Or.inr (Or.inr (Or.inr (Or.inr (Or.inr (Or.inl rfl)))))))))⟩
  split at h
  · injection h with h1 h2
    subst h1
    subst h2
    exact Or.inr ⟨rfl, _, rfl,
      Or.inr (Or.inr (Or.inr (Or.inr (Or.inr (Or.inr (Or.inr (Or.inr (Or.inr (Or.inr
        (Or.inl rfl))))))))))⟩
  split at h
  · rename_i e he
    injection h with h1 h2
    subst h1
    subst h2
    refine Or.inr ⟨rfl, e, rfl, ?_⟩
    rcases parse_stks_error _ _ he with hh | hh
    · exact Or.inr (Or.inr (Or.inr (Or.inr (Or.inr (Or.inr (Or.inr (Or.inr (Or.inr (Or.inr
        (Or.inr (Or.inl hh)))))))))))
    · exact Or.inr (Or.inr (Or.inr (Or.inr (Or.inr (Or.inr (Or.inr (Or.inr (Or.inr (Or.inr
        (Or.inr (Or.inr hh)))))))))))
  · injection h with h1 h2
    subst h2
    exact Or.inl rfl

theorem getD_append_drop (dyn mem : List Nat) (i : Nat) (hi : dyn.length ≤ i) :
    (dyn ++ mem.drop dyn.length).getD i 0 = mem.getD i 0 := by
  rw [List.getD_append_right _ _ _ _ hi, List.getD_eq_getD_get?, List.getD_eq_getD_get?,
    List.get?_drop]
  have hidx : dyn.length + (i - dyn.length) = i := by omega
  rw [hidx]

/-- C10: a successful restore only writes a prefix of memory — the
reconstructed dynamic payload, whose length the guard bounds by
`static_memory_addr` — while every byte at or beyond that length keeps its
pre-restore value (in particular all of static memory, and the tail of
dynamic memory under a short `UMem` payload); PC and the frame list are
replaced, and no other field changes. -/
theorem restore_success_writes_prefix (zm : ZMachine) (data : List Nat)
    (zm' : ZMachine) (h : quetzal_restore zm data = (zm', none)) :
    ∃ dyn pcv frames,
      dyn.length ≤ zm.header_static ∧
      zm' = { zm with
                memory := dyn ++ zm.memory.drop dyn.length
                pc := pcv
                frames := frames } ∧
      ∀ i, dyn.length ≤ i → zm'.memory.getD i 0 = zm.memory.getD i 0 := by
  delta quetzal_restore at h
  split at h
  · injection h with h1 h2; exact Option.noConfusion h2
  split at h
  · injection h with h1 h2; exact Option.noConfusion h2
  split at h
  · injection h with h1 h2; exact Option.noConfusion h2
  split at h
  · injection h with h1 h2; exact Option.noConfusion h2
  split at h
  · injection h with h1 h2; exact Option.noConfusion h2
  split at h
  · injection h with h1 h2; exact Option.noConfusion h2
  split at h
  · injection h with h1 h2; exact Option.noConfusion h2
  split at h
  · injection h with h1 h2; exact Option.noConfusion h2
  split at h
  · injection h with h1 h2; exact Option.noConfusion h2
  rename_i dynamic hdynchunk
  split at h
  · injection h with h1 h2; exact Option.noConfusion h2
  rename_i hlen
  split at h
  · injection h with h1 h2; exact Option.noConfusion h2
  split at h
  · injection h with h1 h2; exact Option.noConfusion h2
  · injection h with h1 h2
    subst h1
    refine ⟨dynamic, _, _, by omega, rfl, ?_⟩
    intro i hi
    exact getD_append_drop dynamic zm.memory i hi

/-- Witness for `restore_success_writes_prefix`: a concrete successful
restore (of the save produced from `zmC1`). -/
theorem restore_success_writes_prefix_witness :
    ∃ dyn pcv frames,
      dyn.length ≤ zmC1.header_static ∧
      (quetzal_restore zmC1 (quetzal_save zmC1 zmC1.pc)).1 =
        { zmC1 with
            memory := dyn ++ zmC1.memory.drop dyn.length
            pc := pcv
            frames := frames } ∧
      ∀ i, dyn.length ≤ i →
        (quetzal_restore zmC1 (quetzal_save zmC1 zmC1.pc)).1.memory.getD i 0 =
          zmC1.memory.getD i 0 :=
  restore_success_writes_prefix zmC1 (quetzal_save zmC1 zmC1.pc)
    ((quetzal_restore zmC1 (quetzal_save zmC1 zmC1.pc)).1) (by decide)

theorem sibPath_zero {f : Nat → Nat} {l : List Nat} {b : Nat}
    (h : SibPath f 0 l b) : l = [] ∧ b = 0 := by
  cases h with
  | nil => exact ⟨rfl, rfl⟩
  | cons ha _ => exact absurd rfl ha

theorem sibPath_mem_ne_zero {f : Nat → Nat} {a : Nat} {l : List Nat} {b m : Nat}
    (h : SibPath f a l b) (hm : m ∈ l) : m ≠ 0 := by
  induction h with
  | nil => cases hm
  | cons ha _ ih =>
    rcases List.mem_cons.mp hm with rfl | hm
    · exact ha
    · exact ih hm

theorem sibPath_unique {f : Nat → Nat} {l : List Nat} :
    ∀ {a : Nat} {l' : List Nat}, SibPath f a l 0 → SibPath f a l' 0 → l = l' := by
  induction l with
  | nil =>
    intro a l' h h'
    have := sibPath_zero (by cases h; exact h')
    exact this.1.symm
  | cons x xs ih =>
    intro a l' h h'
    cases h with
    | cons ha htail =>
      cases h' with
      | nil => exact absurd rfl ha
      | cons ha' htail' => exact congrArg _ (ih htail htail')

theorem sibPath_append {f : Nat → Nat} {a : Nat} {l l' : List Nat} {b c : Nat}
    (h : SibPath f a l b) (h' : SibPath f b l' c) : SibPath f a (l ++ l') c := by
  induction h with
  | nil => exact h'
  | cons ha _ ih => exact SibPath.cons ha (ih h')

theorem sibPath_append_inv {f : Nat → Nat} {l : List Nat} :
    ∀ {a : Nat} {l' : List Nat} {c : Nat}, SibPath f a (l ++ l') c →
    ∃ b, SibPath f a l b ∧ SibPath f b l' c := by
  induction l with
  | nil => exact fun h => ⟨_, SibPath.nil _, h⟩
  | cons x xs ih =>
    intro a l' c h
    cases h with
    | cons ha htail =>
      obtain ⟨b, hb, hb'⟩ := ih htail
      exact ⟨b, SibPath.cons ha hb, hb'⟩

theorem sibPath_mem_split {f : Nat → Nat} {a : Nat} {l : List Nat} {b m : Nat}
    (h : SibPath f a l b) (hm : m ∈ l) :
    ∃ P Q, l = P ++ m :: Q ∧ SibPath f a P m ∧ SibPath f m (m :: Q) b := by
  induction h with
  | nil => cases hm
  | cons ha htail ih =>
    rename_i a' b' l'
    rcases List.mem_cons.mp hm with rfl | hm
    · exact ⟨[], l', rfl, SibPath.nil _, SibPath.cons ha htail⟩
    · obtain ⟨P, Q, hPQ, hP, hQ⟩ := ih hm
      exact ⟨a' :: P, Q, by rw [hPQ]; rfl, SibPath.cons ha hP, hQ⟩

theorem sibPath_congr {f f' : Nat → Nat} {a : Nat} {l : List Nat} {b : Nat}
    (hagree : ∀ x ∈ l, f' x = f x) (h : SibPath f a l b) : SibPath f' a l b := by
  induction h with
  | nil => exact SibPath.nil _
  | cons ha htail ih =>
    refine SibPath.cons ha ?_
    rw [hagree _ (List.mem_cons_self _ _)]
    exact ih fun x hx => hagree x (List.mem_cons_of_mem _ hx)

theorem sibPath_nodup {f : Nat → Nat} {l : List Nat} :
    ∀ {a : Nat}, SibPath f a l 0 → l.Nodup := by
  induction l with
  | nil => exact fun _ => List.nodup_nil
  | cons x xs ih =>
    intro a h
    cases h with
    | cons ha htail =>
      refine List.nodup_cons.mpr ⟨?_, ih htail⟩
      intro hmem
      obtain ⟨P, Q, hPQ, _, hQ⟩ := sibPath_mem_split htail hmem
      have huniq := sibPath_unique (SibPath.cons ha htail) hQ
      have hlen := congrArg List.length huniq
      simp [hPQ] at hlen
      omega

theorem list_first_split (S : Nat → Prop) :
    ∀ l : List Nat, (∃ m ∈ l, S m) →
    ∃ P x Q, l = P ++ x :: Q ∧ S x ∧ ∀ y ∈ P, ¬ S y := by
  intro l
  induction l with
  | nil => rintro ⟨m, hm, _⟩; cases hm
  | cons c cs ih =>
    intro hex
    by_cases hc : S c
    · exact ⟨[], c, cs, rfl, hc, by simp⟩
    · obtain ⟨m, hm, hSm⟩ := hex
      rcases List.mem_cons.mp hm with rfl | hm
      · exact absurd hSm hc
      · obtain ⟨P, x, Q, hPQ, hSx, hP⟩ := ih ⟨m, hm, hSm⟩
        refine ⟨c :: P, x, Q, by rw [hPQ]; rfl, hSx, ?_⟩
        intro y hy
        rcases List.mem_cons.mp hy with rfl | hy
        · exact hc
        · exact hP y hy

theorem term_transfer (f f' : Nat → Nat) (S : Nat → Prop)
    (hagree : ∀ x, ¬ S x → f' x = f x)
    (hnew : ∀ x, S x → ∃ l', SibPath f' x l' 0)
    (hterm : ∀ m, ∃ l, SibPath f m l 0) :
    ∀ m, ∃ l, SibPath f' m l 0 := by
  intro m
  obtain ⟨L, hL⟩ := hterm m
  by_cases hS : ∃ x ∈ L, S x
  · obtain ⟨P, x, Q, hPQ, hSx, hP⟩ := list_first_split S L hS
    subst hPQ
    obtain ⟨b, hPb, hxQ⟩ := sibPath_append_inv hL
    have hbx : b = x := by cases hxQ; rfl
    subst hbx
    have hPm : SibPath f' m P b := sibPath_congr (fun z hz => hagree z (hP z hz)) hPb
    obtain ⟨l', hl'⟩ := hnew b hSx
    exact ⟨P ++ l', sibPath_append hPm hl'⟩
  · push_neg at hS
    exact ⟨L, sibPath_congr (fun z hz => hagree z (hS z hz)) hL⟩

theorem get_sibling_set_sibling (s : ObjStore) (x v n : Nat) (hx : x ≠ 0) :
    ((s.set_sibling x v).get_sibling n) = if n = x then v else s.get_sibling n := by
  unfold ObjStore.get_sibling ObjStore.set_sibling
  by_cases h0 : n = 0
  · subst h0
    simp [Ne.symm hx]
  · simp only [if_neg h0]
    by_cases hnx : n = x
    · subst hnx; simp [Function.update]
    · simp [Function.update, hnx]

theorem get_parent_set_parent (s : ObjStore) (x v n : Nat) (hx : x ≠ 0) :
    ((s.set_parent x v).get_parent n) = if n = x then v else s.get_parent n := by
  unfold ObjStore.get_parent ObjStore.set_parent
  by_cases h0 : n = 0
  · subst h0
    simp [Ne.symm hx]
  · simp only [if_neg h0]
    by_cases hnx : n = x
    · subst hnx; simp [Function.update]
    · simp [Function.update, hnx]

theorem get_child_set_child (s : ObjStore) (x v n : Nat) (hx : x ≠ 0) :
    ((s.set_child x v).get_child n) = if n = x then v else s.get_child n := by
  unfold ObjStore.get_child ObjStore.set_child
  by_cases h0 : n = 0
  · subst h0
    simp [Ne.symm hx]
  · simp only [if_neg h0]
    by_cases hnx : n = x
    · subst hnx; simp [Function.update]
    · simp [Function.update, hnx]

theorem get_older_spec (s : ObjStore) (obj : Nat) :
    ∀ (L : List Nat) (prev : Nat), SibPath s.get_sibling prev L 0 → obj ∈ L →
    obj ≠ prev →
    ∃ older, get_older s obj prev L.length = some older ∧
      s.get_sibling older = obj ∧ older ∈ L := by
  intro L
  induction L with
  | nil => intro prev _ hm; cases hm
  | cons x xs ih =>
    intro prev hpath hmem hne
    cases hpath with
    | cons ha htail =>
      have hmem' : obj ∈ xs := by
        rcases List.mem_cons.mp hmem with rfl | hm
        · exact absurd rfl hne
        · exact hm
      by_cases hnext : s.get_sibling x = obj
      · refine ⟨x, ?_, hnext, List.mem_cons_self _ _⟩
        simp [get_older, hnext]
      · have hneq : obj ≠ s.get_sibling x := fun e => hnext e.symm
        obtain ⟨older, hold, holds, holdm⟩ := ih (s.get_sibling x) htail hmem' hneq
        refine ⟨older, ?_, holds, List.mem_cons_of_mem _ holdm⟩
        simp [get_older, hnext, hold]

theorem get_sibling_set_parent (s : ObjStore) (x v : Nat) :
    (s.set_parent x v).get_sibling = s.get_sibling := rfl

theorem get_sibling_set_child (s : ObjStore) (x v : Nat) :
    (s.set_child x v).get_sibling = s.get_sibling := rfl

theorem get_parent_set_sibling (s : ObjStore) (x v : Nat) :
    (s.set_sibling x v).get_parent = s.get_parent := rfl

theorem get_parent_set_child (s : ObjStore) (x v : Nat) :
    (s.set_child x v).get_parent = s.get_parent := rfl

theorem get_child_set_sibling (s : ObjStore) (x v : Nat) :
    (s.set_sibling x v).get_child = s.get_child := rfl

theorem get_child_set_parent (s : ObjStore) (x v : Nat) :
    (s.set_parent x v).get_child = s.get_child := rfl

theorem caseA_sib (s : ObjStore) (p y obj : Nat) (hobj : obj ≠ 0) (n : Nat) :
    (((s.set_child p y).set_parent obj 0).set_sibling obj 0).get_sibling n =
      if n = obj then 0 else s.get_sibling n := by
  rw [get_sibling_set_sibling _ _ _ _ hobj, get_sibling_set_parent,
    get_sibling_set_child]

theorem caseA_par (s : ObjStore) (p y obj : Nat) (hobj : obj ≠ 0) (n : Nat) :
    (((s.set_child p y).set_parent obj 0).set_sibling obj 0).get_parent n =
      if n = obj then 0 else s.get_parent n := by
  rw [get_parent_set_sibling, get_parent_set_parent _ _ _ _ hobj,
    get_parent_set_child]

theorem caseA_child (s : ObjStore) (p y obj : Nat) (hp : p ≠ 0) (n : Nat) :
    (((s.set_child p y).set_parent obj 0).set_sibling obj 0).get_child n =
      if n = p then y else s.get_child n := by
  rw [get_child_set_sibling, get_child_set_parent, get_child_set_child _ _ _ _ hp]

theorem caseB_sib (s : ObjStore) (older y obj : Nat) (hobj : obj ≠ 0)
    (holder : older ≠ 0) (n : Nat) :
    (((s.set_sibling older y).set_parent obj 0).set_sibling obj 0).get_sibling n =
      if n = obj then 0 else if n = older then y else s.get_sibling n := by
  rw [get_sibling_set_sibling _ _ _ _ hobj, get_sibling_set_parent,
    get_sibling_set_sibling _ _ _ _ holder]

theorem caseB_par (s : ObjStore) (older y obj : Nat) (hobj : obj ≠ 0) (n : Nat) :
    (((s.set_sibling older y).set_parent obj 0).set_sibling obj 0).get_parent n =
      if n = obj then 0 else s.get_parent n := by
  rw [get_parent_set_sibling, get_parent_set_parent _ _ _ _ hobj,
    get_parent_set_sibling]

theorem caseB_child (s : ObjStore) (older y obj : Nat) (n : Nat) :
    (((s.set_sibling older y).set_parent obj 0).set_sibling obj 0).get_child n =
      s.get_child n := rfl

theorem caseI_sib (s1 : ObjStore) (obj dest pfc : Nat) (hobj : obj ≠ 0) (n : Nat) :
    (((s1.set_parent obj dest).set_child dest obj).set_sibling obj pfc).get_sibling n =
      if n = obj then pfc else s1.get_sibling n := by
  rw [get_sibling_set_sibling _ _ _ _ hobj, get_sibling_set_child,
    get_sibling_set_parent]

theorem caseI_par (s1 : ObjStore) (obj dest pfc : Nat) (hobj : obj ≠ 0) (n : Nat) :
    (((s1.set_parent obj dest).set_child dest obj).set_sibling obj pfc).get_parent n =
      if n = obj then dest else s1.get_parent n := by
  rw [get_parent_set_sibling, get_parent_set_child,
    get_parent_set_parent _ _ _ _ hobj]

theorem caseI_child (s1 : ObjStore) (obj dest pfc : Nat) (hdest : dest ≠ 0) (n : Nat) :
    (((s1.set_parent obj dest).set_child dest obj).set_sibling obj pfc).get_child n =
      if n = dest then obj else s1.get_child n := by
  rw [get_child_set_sibling, get_child_set_child _ _ _ _ hdest, get_child_set_parent]

theorem remove_obj_spec (s : ObjStore) (obj : Nat) (hwf : s.WF) (hobj : obj ≠ 0) :
    ∃ fuel s1, remove_obj s obj fuel = some s1 ∧ s1.WF ∧
      s1.get_parent obj = 0 ∧
      (∀ d, s.get_child d ≠ obj → s1.get_child d = s.get_child d) ∧
      (∀ m, m ≠ obj → s1.get_parent m = s.get_parent m) := by
  by_cases hp0 : s.get_parent obj = 0
  · refine ⟨0, s, ?_, hwf, hp0, fun d _ => rfl, fun m _ => rfl⟩
    simp [remove_obj, hp0]
  · obtain ⟨L, hL⟩ := hwf.term (s.get_child (s.get_parent obj))
    have hmemL : obj ∈ L := hwf.mem obj hobj hp0 L hL
    have hnodupL := sibPath_nodup hL
    have hparents : ∀ m ∈ L, s.get_parent m = s.get_parent obj :=
      fun m hm => hwf.childParent (s.get_parent obj) hp0 L hL m hm
    by_cases hfc : obj = s.get_child (s.get_parent obj)
    · -- obj is its parent's first child
      have hL' : SibPath s.get_sibling obj L 0 := by rw [← hfc] at hL; exact hL
      rw [← hfc] at hL
      cases hL' with
      | nil => exact absurd rfl hobj
      | cons ha htail =>
        rename_i Q
        have hobjQ : obj ∉ Q := (List.nodup_cons.mp hnodupL).1
        have hsib1 := caseA_sib s (s.get_parent obj) (s.get_sibling obj) obj hobj
        have hpar1 := caseA_par s (s.get_parent obj) (s.get_sibling obj) obj hobj
        have hchild1 := caseA_child s (s.get_parent obj) (s.get_sibling obj) obj hp0
        set s1 : ObjStore :=
          ((s.set_child (s.get_parent obj) (s.get_sibling obj)).set_parent obj 0).set_sibling
            obj 0 with hs1def
        have hchildp : s1.get_child (s.get_parent obj) = s.get_sibling obj := by
          rw [hchild1, if_pos rfl]
        have hsib_obj : s1.get_sibling obj = 0 := by rw [hsib1, if_pos rfl]
        have f1Q : SibPath s1.get_sibling (s.get_sibling obj) Q 0 :=
          sibPath_congr (fun x hx => by
            rw [hsib1 x, if_neg (fun e : x = obj => hobjQ (e ▸ hx))]) htail
        have fobjpath : SibPath s1.get_sibling obj [obj] 0 := by
          refine SibPath.cons hobj ?_
          rw [hsib_obj]
          exact SibPath.nil 0
        have hterm1 : ∀ m, ∃ l, SibPath s1.get_sibling m l 0 := by
          refine term_transfer s.get_sibling s1.get_sibling (fun x => x = obj) ?_ ?_ hwf.term
          · intro x hx
            have hx' : x ≠ obj := hx
            rw [hsib1 x, if_neg hx']
          · intro x hx
            have hx' : x = obj := hx
            rw [hx']
            exact ⟨[obj], fobjpath⟩
        have hcp1 : ∀ p', p' ≠ 0 → ∀ l, SibPath s1.get_sibling (s1.get_child p') l 0 →
            ∀ m ∈ l, s1.get_parent m = p' := by
          intro p' hp' l hl m hm
          by_cases hpp : p' = s.get_parent obj
          · subst hpp
            rw [hchildp] at hl
            have hlQ : l = Q := sibPath_unique hl f1Q
            subst hlQ
            have hmne : m ≠ obj := fun e => hobjQ (e ▸ hm)
            rw [hpar1 m, if_neg hmne]
            exact hparents m (List.mem_cons_of_mem obj hm)
          · have hchildp' : s1.get_child p' = s.get_child p' := by
              rw [hchild1, if_neg hpp]
            rw [hchildp'] at hl
            obtain ⟨l₀, hl₀⟩ := hwf.term (s.get_child p')
            have hobjl₀ : obj ∉ l₀ := fun hin =>
              hpp ((hwf.childParent p' hp' l₀ hl₀ obj hin).symm)
            have hl₀1 : SibPath s1.get_sibling (s.get_child p') l₀ 0 :=
              sibPath_congr (fun x hx => by
                rw [hsib1 x, if_neg (fun e : x = obj => hobjl₀ (e ▸ hx))]) hl₀
            have hll : l = l₀ := sibPath_unique hl hl₀1
            subst hll
            have hmne : m ≠ obj := fun e => hobjl₀ (e ▸ hm)
            rw [hpar1 m, if_neg hmne]
            exact hwf.childParent p' hp' l hl₀ m hm
        have hmem1 : ∀ m, m ≠ 0 → s1.get_parent m ≠ 0 →
            ∀ l, SibPath s1.get_sibling (s1.get_child (s1.get_parent m)) l 0 → m ∈ l := by
          intro m hm hpm l hl
          have hmne : m ≠ obj := by
            intro e
            subst e
            rw [hpar1 m, if_pos rfl] at hpm
            exact hpm rfl
          have hpm_eq : s1.get_parent m = s.get_parent m := by rw [hpar1 m, if_neg hmne]
          rw [hpm_eq] at hl hpm
          by_cases hpp : s.get_parent m = s.get_parent obj
          · rw [hpp, hchildp] at hl
            have hlQ : l = Q := sibPath_unique hl f1Q
            rw [hlQ]
            have hmL : m ∈ obj :: Q := by
              refine hwf.mem m hm hpm (obj :: Q) ?_
              rw [hpp, ← hfc]
              exact SibPath.cons hobj htail
            rcases List.mem_cons.mp hmL with e | hmQ
            · exact absurd e hmne
            · exact hmQ
          · have hchildp' : s1.get_child (s.get_parent m) = s.get_child (s.get_parent m) := by
              rw [hchild1, if_neg hpp]
            rw [hchildp'] at hl
            obtain ⟨l₀, hl₀⟩ := hwf.term (s.get_child (s.get_parent m))
            have hobjl₀ : obj ∉ l₀ := fun hin =>
              hpp ((hwf.childParent (s.get_parent m) hpm l₀ hl₀ obj hin).symm)
            have hl₀1 : SibPath s1.get_sibling (s.get_child (s.get_parent m)) l₀ 0 :=
              sibPath_congr (fun x hx => by
                rw [hsib1 x, if_neg (fun e : x = obj => hobjl₀ (e ▸ hx))]) hl₀
            have hll : l = l₀ := sibPath_unique hl hl₀1
            subst hll
            exact hwf.mem m hm hpm l hl₀
        refine ⟨0, s1, ?_, ⟨hterm1, hcp1, hmem1⟩, ?_, ?_, ?_⟩
        · simp only [remove_obj, hs1def]
          rw [if_neg hp0, if_pos hfc]
          rfl
        · rw [hpar1 obj, if_pos rfl]
        · intro d hd
          have hdp : d ≠ s.get_parent obj := fun e => hd (by rw [e, ← hfc])
          rw [hchild1 d, if_neg hdp]
        · intro m hmne
          rw [hpar1 m, if_neg hmne]
    · -- obj is a later sibling: unlink through its older sibling
      obtain ⟨older, holder_eq, holder_sib, holder_mem⟩ :=
        get_older_spec s obj L (s.get_child (s.get_parent obj)) hL hmemL hfc
      have holder0 : older ≠ 0 := sibPath_mem_ne_zero hL holder_mem
      obtain ⟨P, Q, hLPQ, hPpath, hQpath⟩ := sibPath_mem_split hL hmemL
      have hyQ : SibPath s.get_sibling (s.get_sibling obj) Q 0 := by
        cases hQpath
        assumption
      have hnodupPQ : (P ++ obj :: Q).Nodup := hLPQ ▸ hnodupL
      obtain ⟨hPnodup, hOQnodup, hPdisj⟩ := List.nodup_append.mp hnodupPQ
      have hobjP : obj ∉ P := fun hin => hPdisj hin (List.mem_cons_self _ _)
      have hobjQ : obj ∉ Q := (List.nodup_cons.mp hOQnodup).1
      have holderQ : older ∉ Q := by
        intro hin
        obtain ⟨Q₁, Q₂, hQ12, _, hQtail⟩ := sibPath_mem_split hyQ hin
        have ht2 : SibPath s.get_sibling obj Q₂ 0 := by
          cases hQtail with
          | cons _ ht => rw [holder_sib] at ht; exact ht
        have hQeq : Q₂ = obj :: Q := sibPath_unique ht2 hQpath
        have h1 := congrArg List.length hQ12
        have h2 := congrArg List.length hQeq
        simp at h1 h2
        omega
      have holder_ne : older ≠ obj := by
        intro e
        have hsib_self : s.get_sibling obj = obj := by rw [← e]; rw [← e] at holder_sib; exact holder_sib
        have ht2 : SibPath s.get_sibling obj Q 0 := by rw [hsib_self] at hyQ; exact hyQ
        have hQeq : Q = obj :: Q := sibPath_unique ht2 hQpath
        have h1 := congrArg List.length hQeq
        simp at h1
      have holderP : older ∈ P := by
        have hmm : older ∈ P ++ obj :: Q := hLPQ ▸ holder_mem
        rcases List.mem_append.mp hmm with h | h
        · exact h
        · rcases List.mem_cons.mp h with e | hq
          · exact absurd e holder_ne
          · exact absurd hq holderQ
      obtain ⟨P₁, P₂, hP12, hP1path, hP2tail⟩ := sibPath_mem_split hPpath holderP
      have hP2nil : P₂ = [] := by
        cases hP2tail with
        | cons _ ht =>
          rw [holder_sib] at ht
          cases ht with
          | nil => rfl
          | cons _ _ =>
            rename_i l₂ _ _
            exact absurd (by
              rw [hP12]
              exact List.mem_append.mpr
                (Or.inr (List.mem_cons_of_mem older (List.mem_cons_self obj l₂)))) hobjP
      subst hP2nil
      have holdP₁ : older ∉ P₁ := by
        rw [hP12] at hPnodup
        obtain ⟨_, _, hdisj⟩ := List.nodup_append.mp hPnodup
        exact fun hin => hdisj hin (List.mem_cons_self _ _)
      have hobjP₁ : obj ∉ P₁ := fun hin => hobjP (by
        rw [hP12]
        exact List.mem_append.mpr (Or.inl hin))
      have hsib1 := caseB_sib s older (s.get_sibling obj) obj hobj holder0
      have hpar1 := caseB_par s older (s.get_sibling obj) obj hobj
      have hchild1 := caseB_child s older (s.get_sibling obj) obj
      set s1 : ObjStore :=
        ((s.set_sibling older (s.get_sibling obj)).set_parent obj 0).set_sibling obj 0
        with hs1def
      have hsib_obj : s1.get_sibling obj = 0 := by rw [hsib1, if_pos rfl]
      have hsib_older : s1.get_sibling older = s.get_sibling obj := by
        rw [hsib1, if_neg holder_ne, if_pos rfl]
      have hQ1 : SibPath s1.get_sibling (s.get_sibling obj) Q 0 :=
        sibPath_congr (fun x hx => by
          rw [hsib1 x, if_neg (fun e : x = obj => hobjQ (e ▸ hx)),
            if_neg (fun e : x = older => holderQ (e ▸ hx))]) hyQ
      have holder_chain : SibPath s1.get_sibling older (older :: Q) 0 := by
        refine SibPath.cons holder0 ?_
        rw [hsib_older]
        exact hQ1
      have hP₁1 : SibPath s1.get_sibling (s.get_child (s.get_parent obj)) P₁ older :=
        sibPath_congr (fun x hx => by
          rw [hsib1 x, if_neg (fun e : x = obj => hobjP₁ (e ▸ hx)),
            if_neg (fun e : x = older => holdP₁ (e ▸ hx))]) hP1path
      have hNew : SibPath s1.get_sibling (s.get_child (s.get_parent obj))
          (P₁ ++ older :: Q) 0 := sibPath_append hP₁1 holder_chain
      have fobjpath : SibPath s1.get_sibling obj [obj] 0 := by
        refine SibPath.cons hobj ?_
        rw [hsib_obj]
        exact SibPath.nil 0
      have hterm1 : ∀ m, ∃ l, SibPath s1.get_sibling m l 0 := by
        refine term_transfer s.get_sibling s1.get_sibling
          (fun x => x = obj ∨ x = older) ?_ ?_ hwf.term
        · intro x hx
          have hx' : ¬(x = obj ∨ x = older) := hx
          rw [hsib1 x, if_neg (fun e => hx' (Or.inl e)), if_neg (fun e => hx' (Or.inr e))]
        · intro x hx
          have hx' : x = obj ∨ x = older := hx
          rcases hx' with h | h
          · rw [h]
            exact ⟨[obj], fobjpath⟩
          · rw [h]
            exact ⟨older :: Q, holder_chain⟩
      have hNewMem : ∀ m ∈ P₁ ++ older :: Q, m ∈ L ∧ m ≠ obj := by
        intro m hm
        rcases List.mem_append.mp hm with h1 | h2
        · refine ⟨?_, fun e => hobjP₁ (e ▸ h1)⟩
          rw [hLPQ, hP12]
          exact List.mem_append.mpr (Or.inl (List.mem_append.mpr (Or.inl h1)))
        · rcases List.mem_cons.mp h2 with e | hq
          · subst e
            exact ⟨holder_mem, holder_ne⟩
          · refine ⟨?_, fun e => hobjQ (e ▸ hq)⟩
            rw [hLPQ]
            exact List.mem_append.mpr (Or.inr (List.mem_cons_of_mem _ hq))
      have hcp1 : ∀ p', p' ≠ 0 → ∀ l, SibPath s1.get_sibling (s1.get_child p') l 0 →
          ∀ m ∈ l, s1.get_parent m = p' := by
        intro p' hp' l hl m hm
        rw [hchild1] at hl
        by_cases hpp : p' = s.get_parent obj
        · subst hpp
          have hleq : l = P₁ ++ older :: Q := sibPath_unique hl hNew
          subst hleq
          obtain ⟨hmL, hmne⟩ := hNewMem m hm
          rw [hpar1 m, if_neg hmne]
          exact hparents m hmL
        · obtain ⟨l₀, hl₀⟩ := hwf.term (s.get_child p')
          have hobjl₀ : obj ∉ l₀ := fun hin =>
            hpp ((hwf.childParent p' hp' l₀ hl₀ obj hin).symm)
          have holdl₀ : older ∉ l₀ := by
            intro hin
            refine hpp ?_
            have h1 := hwf.childParent p' hp' l₀ hl₀ older hin
            have h2 := hparents older holder_mem
            rw [← h1, h2]
          have hl₀1 : SibPath s1.get_sibling (s.get_child p') l₀ 0 :=
            sibPath_congr (fun x hx => by
              rw [hsib1 x, if_neg (fun e : x = obj => hobjl₀ (e ▸ hx)),
                if_neg (fun e : x = older => holdl₀ (e ▸ hx))]) hl₀
          have hll : l = l₀ := sibPath_unique hl hl₀1
          subst hll
          rw [hpar1 m, if_neg (fun e : m = obj => hobjl₀ (e ▸ hm))]
          exact hwf.childParent p' hp' l hl₀ m hm
      have hmem1 : ∀ m, m ≠ 0 → s1.get_parent m ≠ 0 →
          ∀ l, SibPath s1.get_sibling (s1.get_child (s1.get_parent m)) l 0 → m ∈ l := by
        intro m hm hpm l hl
        have hmne : m ≠ obj := by
          intro e
          subst e
          rw [hpar1 m, if_pos rfl] at hpm
          exact hpm rfl
        have hpm_eq : s1.get_parent m = s.get_parent m := by rw [hpar1 m, if_neg hmne]
        rw [hpm_eq] at hl hpm
        rw [hchild1] at hl
        by_cases hpp : s.get_parent m = s.get_parent obj
        · rw [hpp] at hl
          have hleq : l = P₁ ++ older :: Q := sibPath_unique hl hNew
          subst hleq
          have hmL : m ∈ L := by
            refine hwf.mem m hm hpm L ?_
            rw [hpp]
            exact hL
          rw [hLPQ, hP12] at hmL
          rcases List.mem_append.mp hmL with h1 | h2
          · rcases List.mem_append.mp h1 with h1a | h1b
            · exact List.mem_append.mpr (Or.inl h1a)
            · rcases List.mem_cons.mp h1b with e | hnil
              · subst e
                exact List.mem_append.mpr (Or.inr (List.mem_cons_self _ _))
              · cases hnil
          · rcases List.mem_cons.mp h2 with e | h
            · exact absurd e hmne
            · exact List.mem_append.mpr (Or.inr (List.mem_cons_of_mem _ h))
        · obtain ⟨l₀, hl₀⟩ := hwf.term (s.get_child (s.get_parent m))
          have hobjl₀ : obj ∉ l₀ := fun hin =>
            hpp ((hwf.childParent (s.get_parent m) hpm l₀ hl₀ obj hin).symm)
          have holdl₀ : older ∉ l₀ := by
            intro hin
            refine hpp ?_
            have h1 := hwf.childParent (s.get_parent m) hpm l₀ hl₀ older hin
            have h2 := hparents older holder_mem
            rw [← h1, h2]
          have hl₀1 : SibPath s1.get_sibling (s.get_child (s.get_parent m)) l₀ 0 :=
            sibPath_congr (fun x hx => by
              rw [hsib1 x, if_neg (fun e : x = obj => hobjl₀ (e ▸ hx)),
                if_neg (fun e : x = older => holdl₀ (e ▸ hx))]) hl₀
          have hll : l = l₀ := sibPath_unique hl hl₀1
          subst hll
          exact hwf.mem m hm hpm l hl₀
      refine ⟨L.length, s1, ?_, ⟨hterm1, hcp1, hmem1⟩, ?_, ?_, ?_⟩
      · simp only [remove_obj, hs1def]
        rw [if_neg hp0, if_neg hfc, holder_eq]
        rfl
      · rw [hpar1 obj, if_pos rfl]
      · intro d _
        exact hchild1 d
      · intro m hmne
        rw [hpar1 m, if_neg hmne]

theorem insert_obj_spec (s : ObjStore) (obj dest : Nat) (hwf : s.WF)
    (hobj : obj ≠ 0) (hdest : dest ≠ 0) :
    ∃ fuel s2, insert_obj s obj dest fuel = some s2 ∧ s2.WF ∧
      ((s.get_child dest = obj ∧ s2 = s) ∨
       (s.get_child dest ≠ obj ∧ s2.get_parent obj = dest ∧
        s2.get_child dest = obj)) := by
  by_cases hfc : s.get_child dest = obj
  · refine ⟨0, s, ?_, hwf, Or.inl ⟨hfc, rfl⟩⟩
    simp [insert_obj, hfc]
  · obtain ⟨fuel, s1, hrem, hwf1, hpar1obj, hchild_pres, hpar_pres⟩ :=
      remove_obj_spec s obj hwf hobj
    have hsib2 := caseI_sib s1 obj dest (s.get_child dest) hobj
    have hpar2 := caseI_par s1 obj dest (s.get_child dest) hobj
    have hchild2 := caseI_child s1 obj dest (s.get_child dest) hdest
    set s2 : ObjStore :=
      ((s1.set_parent obj dest).set_child dest obj).set_sibling obj (s.get_child dest)
      with hs2def
    have heq : insert_obj s obj dest fuel = some s2 := by
      rw [hs2def]
      simp [insert_obj, hfc, hrem]
    have hchild1dest : s1.get_child dest = s.get_child dest := hchild_pres dest hfc
    have hsib2obj : s2.get_sibling obj = s.get_child dest := by rw [hsib2, if_pos rfl]
    have hpar2obj : s2.get_parent obj = dest := by rw [hpar2, if_pos rfl]
    have hchild2dest : s2.get_child dest = obj := by rw [hchild2, if_pos rfl]
    have hobj_notin : ∀ p', p' ≠ 0 → ∀ l, SibPath s1.get_sibling (s1.get_child p') l 0 →
        obj ∉ l := by
      intro p' hp' l hl hin
      have h1 := hwf1.childParent p' hp' l hl obj hin
      rw [hpar1obj] at h1
      exact hp' h1.symm
    obtain ⟨Lp, hLp⟩ := hwf1.term (s1.get_child dest)
    have hobjLp : obj ∉ Lp := hobj_notin dest hdest Lp hLp
    have hLp2 : SibPath s2.get_sibling (s1.get_child dest) Lp 0 :=
      sibPath_congr (fun x hx => by
        rw [hsib2 x, if_neg (fun e : x = obj => hobjLp (e ▸ hx))]) hLp
    have hnewchain : SibPath s2.get_sibling obj (obj :: Lp) 0 := by
      refine SibPath.cons hobj ?_
      rw [hsib2obj, ← hchild1dest]
      exact hLp2
    have hterm2 : ∀ m, ∃ l, SibPath s2.get_sibling m l 0 := by
      refine term_transfer s1.get_sibling s2.get_sibling (fun x => x = obj) ?_ ?_ hwf1.term
      · intro x hx
        have hx' : x ≠ obj := hx
        rw [hsib2 x, if_neg hx']
      · intro x hx
        have hx' : x = obj := hx
        rw [hx']
        exact ⟨obj :: Lp, hnewchain⟩
    have hcp2 : ∀ p', p' ≠ 0 → ∀ l, SibPath s2.get_sibling (s2.get_child p') l 0 →
        ∀ m ∈ l, s2.get_parent m = p' := by
      intro p' hp' l hl m hm
      by_cases hpp : p' = dest
      · rw [hpp] at hl ⊢
        rw [hchild2dest] at hl
        have hleq : l = obj :: Lp := sibPath_unique hl hnewchain
        rw [hleq] at hm
        rcases List.mem_cons.mp hm with e | hmLp
        · rw [e]
          exact hpar2obj
        · have hmne : m ≠ obj := fun ee => hobjLp (ee ▸ hmLp)
          rw [hpar2 m, if_neg hmne]
          exact hwf1.childParent dest hdest Lp hLp m hmLp
      · have hc2 : s2.get_child p' = s1.get_child p' := by rw [hchild2, if_neg hpp]
        rw [hc2] at hl
        obtain ⟨l₀, hl₀⟩ := hwf1.term (s1.get_child p')
        have hobjl₀ : obj ∉ l₀ := hobj_notin p' hp' l₀ hl₀
        have hl₀2 : SibPath s2.get_sibling (s1.get_child p') l₀ 0 :=
          sibPath_congr (fun x hx => by
            rw [hsib2 x, if_neg (fun e : x = obj => hobjl₀ (e ▸ hx))]) hl₀
        have hll : l = l₀ := sibPath_unique hl hl₀2
        rw [hll] at hm
        have hmne : m ≠ obj := fun e => hobjl₀ (e ▸ hm)
        rw [hpar2 m, if_neg hmne]
        exact hwf1.childParent p' hp' l₀ hl₀ m hm
    have hmem2 : ∀ m, m ≠ 0 → s2.get_parent m ≠ 0 →
        ∀ l, SibPath s2.get_sibling (s2.get_child (s2.get_parent m)) l 0 → m ∈ l := by
      intro m hm hpm l hl
      by_cases hmo : m = obj
      · rw [hmo] at hl ⊢
        rw [hpar2obj, hchild2dest] at hl
        have hleq : l = obj :: Lp := sibPath_unique hl hnewchain
        rw [hleq]
        exact List.mem_cons_self _ _
      · have hp2m : s2.get_parent m = s1.get_parent m := by rw [hpar2, if_neg hmo]
        rw [hp2m] at hl hpm
        by_cases hpp : s1.get_parent m = dest
        · rw [hpp, hchild2dest] at hl
          have hleq : l = obj :: Lp := sibPath_unique hl hnewchain
          rw [hleq]
          refine List.mem_cons_of_mem _ ?_
          refine hwf1.mem m hm hpm Lp ?_
          rw [hpp]
          exact hLp
        · have hc2 : s2.get_child (s1.get_parent m) = s1.get_child (s1.get_parent m) := by
            rw [hchild2, if_neg hpp]
          rw [hc2] at hl
          obtain ⟨l₀, hl₀⟩ := hwf1.term (s1.get_child (s1.get_parent m))
          have hobjl₀ : obj ∉ l₀ := hobj_notin (s1.get_parent m) hpm l₀ hl₀
          have hl₀2 : SibPath s2.get_sibling (s1.get_child (s1.get_parent m)) l₀ 0 :=
            sibPath_congr (fun x hx => by
              rw [hsib2 x, if_neg (fun e : x = obj => hobjl₀ (e ▸ hx))]) hl₀
          have hll : l = l₀ := sibPath_unique hl hl₀2
          rw [hll]
          exact hwf1.mem m hm hpm l₀ hl₀
    exact ⟨fuel, s2, heq, ⟨hterm2, hcp2, hmem2⟩, Or.inr ⟨hfc, hpar2obj, hchild2dest⟩⟩

/-- C8: assuming the object table encodes a well-formed forest (terminating
sibling chains, chain members parented by the chain's owner, every parented
object present in its parent's chain), both `remove_obj` and `insert_obj`
preserve the invariant for nonzero object ids; after a successful
`insert_obj(obj, dest)` the object's parent is `dest` and it is the first
child of `dest` — unless it already was, in which case the store is
unchanged.  `fuel` bounds the source's unbounded `get_older` recursion;
the existential says the recursion terminates. -/
theorem object_tree_ops_preserve_wf (s : ObjStore) (obj dest : Nat)
    (hwf : s.WF) (hobj : obj ≠ 0) (hdest : dest ≠ 0) :
    (∃ fuel s1, remove_obj s obj fuel = some s1 ∧ s1.WF) ∧
    (∃ fuel s2, insert_obj s obj dest fuel = some s2 ∧ s2.WF ∧
      ((s.get_child dest = obj ∧ s2 = s) ∨
       (s.get_child dest ≠ obj ∧ s2.get_parent obj = dest ∧
        s2.get_child dest = obj))) := by
  constructor
  · obtain ⟨fuel, s1, h1, h2, _⟩ := remove_obj_spec s obj hwf hobj
    exact ⟨fuel, s1, h1, h2⟩
  · exact insert_obj_spec s obj dest hwf hobj hdest

theorem wf_emptyObjStore : emptyObjStore.WF := by
  have hsib : ∀ n, emptyObjStore.get_sibling n = 0 := by
    intro n
    simp [emptyObjStore, ObjStore.get_sibling]
  refine ⟨?_, ?_, ?_⟩
  · intro m
    by_cases hm : m = 0
    · subst hm
      exact ⟨[], SibPath.nil 0⟩
    · refine ⟨[m], SibPath.cons hm ?_⟩
      rw [hsib m]
      exact SibPath.nil 0
  · intro p hp l hl m hm
    have hc : emptyObjStore.get_child p = 0 := by
      simp [emptyObjStore, ObjStore.get_child]
    rw [hc] at hl
    rw [(sibPath_zero hl).1] at hm
    cases hm
  · intro m hm hpm
    exact absurd (by simp [emptyObjStore, ObjStore.get_parent]) hpm

/-- Witness for `object_tree_ops_preserve_wf` at the empty forest with
`obj = 1`, `dest = 2`. -/
theorem object_tree_ops_witness :
    (∃ fuel s1, remove_obj emptyObjStore 1 fuel = some s1 ∧ s1.WF) ∧
    (∃ fuel s2, insert_obj emptyObjStore 1 2 fuel = some s2 ∧ s2.WF ∧
      ((emptyObjStore.get_child 2 = 1 ∧ s2 = emptyObjStore) ∨
       (emptyObjStore.get_child 2 ≠ 1 ∧ s2.get_parent 1 = 2 ∧
        s2.get_child 2 = 1))) :=
  object_tree_ops_preserve_wf emptyObjStore 1 2 wf_emptyObjStore
    (by decide) (by decide)

theorem getD_set_self (l : List Nat) (i v : Nat) (h : i < l.length) :
    (l.set i v).getD i 0 = v := by
  rw [List.getD_eq_getD_get?, List.get?_eq_getElem?, List.getElem?_set_self]
  · rfl
  · exact h

theorem getD_set_ne (l : List Nat) (i v j : Nat) (h : i ≠ j) :
    (l.set i v).getD j 0 = l.getD j 0 := by
  rw [List.getD_eq_getD_get?, List.getD_eq_getD_get?, List.get?_eq_getElem?,
    List.get?_eq_getElem?, List.getElem?_set_ne h]

theorem zwriteByte_some (mem : ZData) (i : Nat) (v : Int) (m : ZData)
    (h : zwriteByte mem i v = some m) :
    0 ≤ v ∧ v ≤ 255 ∧ i < mem.length ∧ m = mem.set i v.toNat := by
  unfold zwriteByte at h
  split at h
  · rename_i hc
    exact ⟨hc.1, hc.2.1, hc.2.2, (Option.some.injEq _ _ ▸ h).symm⟩
  · cases h

theorem zwriteWord_some (mem : ZData) (i v : Nat) (m : ZData)
    (h : zwriteWord mem i v = some m) :
    i + 1 < mem.length ∧
      m = (mem.set i ((v &&& 0xFF00) >>> 8)).set (i + 1) (v &&& 0x00FF) := by
  unfold zwriteWord at h
  split at h
  · rename_i hc
    exact ⟨hc, (Option.some.injEq _ _ ▸ h).symm⟩
  · cases h

theorem writeTokenRecords_length : ∀ (toks : List (Nat × Nat × Int)) (mem : ZData)
    (addr : Nat) (mem' : ZData), writeTokenRecords mem addr toks = some mem' →
    mem'.length = mem.length := by
  intro toks
  induction toks with
  | nil =>
    intro mem addr mem' h
    simp [writeTokenRecords] at h
    rw [← h]
  | cons tr rest ih =>
    rcases tr with ⟨d, len, pos⟩
    intro mem addr mem' h
    simp only [writeTokenRecords, Option.bind_eq_bind, Option.bind_eq_some] at h
    obtain ⟨m1, h1, m2, h2, m3, h3, h4⟩ := h
    obtain ⟨_, hm1⟩ := zwriteWord_some _ _ _ _ h1
    obtain ⟨_, _, _, hm2⟩ := zwriteByte_some _ _ _ _ h2
    obtain ⟨_, _, _, hm3⟩ := zwriteByte_some _ _ _ _ h3
    have := ih m3 (addr + 4) mem' h4
    subst hm1 hm2 hm3
    simpa using this

theorem writeTokenRecords_lower : ∀ (toks : List (Nat × Nat × Int)) (mem : ZData)
    (addr : Nat) (mem' : ZData), writeTokenRecords mem addr toks = some mem' →
    ∀ j, j < addr → mem'.getD j 0 = mem.getD j 0 := by
  intro toks
  induction toks with
  | nil =>
    intro mem addr mem' h j _
    simp [writeTokenRecords] at h
    rw [← h]
  | cons tr rest ih =>
    rcases tr with ⟨d, len, pos⟩
    intro mem addr mem' h j hj
    simp only [writeTokenRecords, Option.bind_eq_bind, Option.bind_eq_some] at h
    obtain ⟨m1, h1, m2, h2, m3, h3, h4⟩ := h
    obtain ⟨_, hm1⟩ := zwriteWord_some _ _ _ _ h1
    obtain ⟨_, _, _, hm2⟩ := zwriteByte_some _ _ _ _ h2
    obtain ⟨_, _, _, hm3⟩ := zwriteByte_some _ _ _ _ h3
    have hrec := ih m3 (addr + 4) mem' h4 j (by omega)
    subst hm1 hm2 hm3
    rw [hrec, getD_set_ne _ _ _ _ (by omega), getD_set_ne _ _ _ _ (by omega),
      getD_set_ne _ _ _ _ (by omega), getD_set_ne _ _ _ _ (by omega)]

theorem writeTokenRecords_bytes : ∀ (toks : List (Nat × Nat × Int)) (mem : ZData)
    (addr : Nat) (mem' : ZData), writeTokenRecords mem addr toks = some mem' →
    ∀ i, i < toks.length →
      mem'.getD (addr + 4 * i) 0 = ((toks.getD i (0, 0, 0)).1 &&& 0xFF00) >>> 8 ∧
      mem'.getD (addr + 4 * i + 1) 0 = (toks.getD i (0, 0, 0)).1 &&& 0x00FF ∧
      mem'.getD (addr + 4 * i + 2) 0 = (toks.getD i (0, 0, 0)).2.1 ∧
      mem'.getD (addr + 4 * i + 3) 0 = (toks.getD i (0, 0, 0)).2.2.toNat := by
  intro toks
  induction toks with
  | nil =>
    intro mem addr mem' _ i hi
    simp at hi
  | cons tr rest ih =>
    rcases tr with ⟨d, len, pos⟩
    intro mem addr mem' h i hi
    simp only [writeTokenRecords, Option.bind_eq_bind, Option.bind_eq_some] at h
    obtain ⟨m1, h1, m2, h2, m3, h3, h4⟩ := h
    obtain ⟨hb1, hm1⟩ := zwriteWord_some _ _ _ _ h1
    obtain ⟨_, _, hb2, hm2⟩ := zwriteByte_some _ _ _ _ h2
    obtain ⟨_, _, hb3, hm3⟩ := zwriteByte_some _ _ _ _ h3
    cases i with
    | zero =>
      have hlow := writeTokenRecords_lower rest m3 (addr + 4) mem' h4
      refine ⟨?_, ?_, ?_, ?_⟩
      · rw [show addr + 4 * 0 = addr from by omega, hlow addr (by omega), hm3,
          getD_set_ne _ _ _ _ (by omega), hm2, getD_set_ne _ _ _ _ (by omega), hm1,
          getD_set_ne _ _ _ _ (by omega),
          getD_set_self _ _ _ (by omega)]
        rfl
      · rw [show addr + 4 * 0 + 1 = addr + 1 from by omega, hlow (addr + 1) (by omega),
          hm3, getD_set_ne _ _ _ _ (by omega), hm2, getD_set_ne _ _ _ _ (by omega), hm1,
          getD_set_self _ _ _ (by rw [List.length_set]; omega)]
        rfl
      · rw [show addr + 4 * 0 + 2 = addr + 2 from by omega, hlow (addr + 2) (by omega),
          hm3, getD_set_ne _ _ _ _ (by omega), hm2,
          getD_set_self _ _ _ hb2]
        simp
      · rw [show addr + 4 * 0 + 3 = addr + 3 from by omega, hlow (addr + 3) (by omega),
          hm3, getD_set_self _ _ _ hb3]
        rfl
    | succ j =>
      have hr := ih m3 (addr + 4) mem' h4 j (by simpa using Nat.lt_of_succ_lt_succ hi)
      obtain ⟨e0, e1, e2, e3⟩ := hr
      refine ⟨?_, ?_, ?_, ?_⟩
      · rw [show addr + 4 * (j + 1) = addr + 4 + 4 * j from by omega, e0]
        simp
      · rw [show addr + 4 * (j + 1) + 1 = addr + 4 + 4 * j + 1 from by omega, e1]
        simp
      · rw [show addr + 4 * (j + 1) + 2 = addr + 4 + 4 * j + 2 from by omega, e2]
        simp
      · rw [show addr + 4 * (j + 1) + 3 = addr + 4 + 4 * j + 3 from by omega, e3]
        simp

theorem subIdx_some_spec : ∀ (t p : List Char) (k : Nat), subIdx t p = some k →
    isPrefixList p (t.drop k) = true ∧ ∀ j, j < k → isPrefixList p (t.drop j) = false := by
  intro t
  induction t with
  | nil =>
    intro p k h
    simp only [subIdx] at h
    split at h
    · rename_i hp
      cases h
      refine ⟨?_, fun j hj => by omega⟩
      rw [List.isEmpty_iff.mp hp]
      rfl
    · cases h
  | cons c rest ih =>
    intro p k h
    simp only [subIdx] at h
    split at h
    · rename_i hpre
      cases h
      exact ⟨by simpa using hpre, fun j hj => by omega⟩
    · rename_i hpre
      rw [Option.map_eq_some'] at h
      obtain ⟨k', hk', hkk⟩ := h
      obtain ⟨ih1, ih2⟩ := ih p k' hk'
      subst hkk
      refine ⟨by simpa using ih1, ?_⟩
      intro j hj
      cases j with
      | zero =>
        simpa using Bool.not_eq_true _ ▸ hpre
      | succ j' => simpa using ih2 j' (by omega)

theorem subIdx_none_spec : ∀ (t p : List Char), subIdx t p = none →
    ∀ j, isPrefixList p (t.drop j) = false := by
  intro t
  induction t with
  | nil =>
    intro p h j
    simp only [subIdx] at h
    split at h
    · cases h
    · rename_i hp
      rw [List.drop_nil]
      cases p with
      | nil => simp at hp
      | cons a ps => rfl
  | cons c rest ih =>
    intro p h j
    simp only [subIdx] at h
    split at h
    · cases h
    · rename_i hpre
      have hnone : subIdx rest p = none := by
        cases hsub : subIdx rest p with
        | none => rfl
        | some k => rw [hsub] at h; simp at h
      cases j with
      | zero => simpa using Bool.not_eq_true _ ▸ hpre
      | succ j' => simpa using ih p hnone j'

/-- C9 (amended): a successful `tokenise` writes, at `parse_addr + 1`, the
token-count byte followed by one 4-byte record per token — the dictionary
address as a big-endian word, the token's character length, and the
position byte — where the position is `start` (1 for v1–4, 2 for v5+) plus
the index found by searching `text` for the token's characters from the
end of the previous occurrence of the same token; the search yields the
*least* index at or after that offset where the characters occur (the
`subIdx` conjuncts), which can lie inside an earlier different word. -/
theorem tokenise_parse_buffer_layout (zm : ZMachine) (text : List Char)
    (parse_addr : Nat) (zm' : ZMachine)
    (h : zm.tokenise text parse_addr = some zm') :
    (∀ t p k, subIdx t p = some k → isPrefixList p (t.drop k) = true ∧
      ∀ j, j < k → isPrefixList p (t.drop j) = false) ∧
    (∀ t p, subIdx t p = none → ∀ j, isPrefixList p (t.drop j) = false) ∧
    zm'.memory.getD (parse_addr + 1) 0 = (zm.token_records text).length ∧
    ∀ i, i < (zm.token_records text).length →
      zm'.memory.getD (parse_addr + 2 + 4 * i) 0 =
        (((zm.token_records text).getD i (0, 0, 0)).1 &&& 0xFF00) >>> 8 ∧
      zm'.memory.getD (parse_addr + 2 + 4 * i + 1) 0 =
        ((zm.token_records text).getD i (0, 0, 0)).1 &&& 0x00FF ∧
      zm'.memory.getD (parse_addr + 2 + 4 * i + 2) 0 =
        ((zm.token_records text).getD i (0, 0, 0)).2.1 ∧
      zm'.memory.getD (parse_addr + 2 + 4 * i + 3) 0 =
        ((zm.token_records text).getD i (0, 0, 0)).2.2.toNat := by
  simp only [ZMachine.tokenise, Option.bind_eq_bind, Option.bind_eq_some] at h
  obtain ⟨m1, h1, m2, h2, h3⟩ := h
  have hzm' : zm'.memory = m2 := by
    have := Option.some.inj h3
    rw [← this]
  obtain ⟨_, _, hb1, hm1⟩ := zwriteByte_some _ _ _ _ h1
  refine ⟨subIdx_some_spec, subIdx_none_spec, ?_, ?_⟩
  · rw [hzm', writeTokenRecords_lower _ _ _ _ h2 (parse_addr + 1) (by omega), hm1,
      getD_set_self _ _ _ hb1]
    simp
  · intro i hi
    have := writeTokenRecords_bytes (zm.token_records text) m1 (parse_addr + 2) m2 h2 i hi
    rw [hzm']
    exact this

/-- Witness for `tokenise_parse_buffer_layout` at the concrete machine
`zmC9` and text `axe x`. -/
theorem tokenise_parse_buffer_layout_witness :
    (∀ t p k, subIdx t p = some k → isPrefixList p (t.drop k) = true ∧
      ∀ j, j < k → isPrefixList p (t.drop j) = false) ∧
    (∀ t p, subIdx t p = none → ∀ j, isPrefixList p (t.drop j) = false) ∧
    ((zmC9.tokenise textC9 0).getD zmC9).memory.getD (0 + 1) 0 =
      (zmC9.token_records textC9).length ∧
    ∀ i, i < (zmC9.token_records textC9).length →
      ((zmC9.tokenise textC9 0).getD zmC9).memory.getD (0 + 2 + 4 * i) 0 =
        (((zmC9.token_records textC9).getD i (0, 0, 0)).1 &&& 0xFF00) >>> 8 ∧
      ((zmC9.tokenise textC9 0).getD zmC9).memory.getD (0 + 2 + 4 * i + 1) 0 =
        ((zmC9.token_records textC9).getD i (0, 0, 0)).1 &&& 0x00FF ∧
      ((zmC9.tokenise textC9 0).getD zmC9).memory.getD (0 + 2 + 4 * i + 2) 0 =
        ((zmC9.token_records textC9).getD i (0, 0, 0)).2.1 ∧
      ((zmC9.tokenise textC9 0).getD zmC9).memory.getD (0 + 2 + 4 * i + 3) 0 =
        ((zmC9.token_records textC9).getD i (0, 0, 0)).2.2.toNat :=
  tokenise_parse_buffer_layout zmC9 textC9 0 ((zmC9.tokenise textC9 0).getD zmC9)
    (by decide)
